import Mathlib

/-!
Verification development for the realm-core sources under scrutiny:
the radix-tree integer search index (`realm/radix_tree.cpp`,
`realm/radix_tree_templates.cpp`, `realm/radix_tree.hpp`), the client-reset
precheck and metadata tracking (`realm/sync/noinst/client_reset.cpp`), and
the object-store `Results` wrapper (`realm/object-store/results.cpp`).

The C++ is shallowly embedded: packed `Array` nodes become an inductive tree
type, machine integers become `Nat` with explicit `% 2 ^ 64` where 64-bit
truncation matters, and `REALM_ASSERT`-guarded code paths are modelled in an
`Except` monad whose error value records which internal check aborted the
operation.
-/

namespace RealmSpec

/-! ## Bit utilities

`fast_popcount64` and `index_of_nth_bit` (from `realm/utilities.hpp`, outside
the sources at hand) are modelled by their documented meaning: number of set
bits, and position of the n-th (0-based) set bit. -/

/-- The textbook popcount loop with one iteration per bit, structural in the
iteration count so terms evaluate by kernel reduction. -/
def popcountGo : Nat → Nat → Nat
  | 0, _ => 0
  | f + 1, n => if n = 0 then 0 else popcountGo f (n / 2) + n % 2

/-- Number of set bits of a 64-bit word (models `fast_popcount64` from
`realm/utilities.hpp`, outside the sources at hand). -/
def popcount (n : Nat) : Nat := popcountGo 64 n

/-- The loop of `index_of_nth_bit`, one iteration per bit. -/
def nthSetBitGo : Nat → Nat → Nat → Nat
  | 0, _, _ => 0
  | f + 1, p, n =>
    if p = 0 then 0
    else if p % 2 = 1 then
      match n with
      | 0 => 0
      | n' + 1 => nthSetBitGo f (p / 2) n' + 1
    else nthSetBitGo f (p / 2) n + 1

/-- Position of the `n`-th (0-based) set bit of the 64-bit word `p`;
meaningful when `n < popcount p` (models `index_of_nth_bit` from
`realm/utilities.hpp`, outside the sources at hand). -/
def nthSetBit (p n : Nat) : Nat := nthSetBitGo 64 p n

/-- The 64-bit complement `~x` of C, for `x < 2 ^ 64`. -/
def compl64 (x : Nat) : Nat := (2 ^ 64 - 1) ^^^ x

/-- Number of set bits among the low `k` bit positions. -/
def countBelow (p k : Nat) : Nat := popcount (p % 2 ^ k)

/-! ## Radix-tree index model

Embedding of `IndexNode` / `RadixTree<6>` (the `IntegerIndex` instantiation)
from `realm/radix_tree.cpp`, `realm/radix_tree_templates.cpp` and
`realm/radix_tree.hpp`.

A node's packed `Array` is `[pop0, pop1, pfx_size, pfx_payload, nulls,
child_0, ..., child_{n-1}]`.  The model keeps the two population bitmaps as
`Nat` (each holds 63 usable bits of a tagged 64-bit slot), the compressed
shared path as the list of its chunk values (the packed tagged/ref payload is
a function of that list, so list equality mirrors slot equality), the nulls
slot, and the children area as a list.  `REALM_ASSERT`-family checks become
`Except` failures. -/

/-- Error raised when a modelled `REALM_ASSERT` / `verify()` check fails. -/
inductive TreeErr where
  | assertViolation
  | verifyFailed
  deriving DecidableEq, Repr

/-- The nulls slot (`c_ndx_of_null = 4`): zero, a tagged ObjKey, or a ref to
a list of ObjKeys. -/
inductive NullSlot where
  | vacant
  | taggedKey (k : Nat)
  | keyList (ks : List Nat)
  deriving DecidableEq, Repr

mutual
/-- A ref-or-tagged child slot: tagged ObjKey, ref to a sorted `IntegerColumn`
of ObjKeys (context flag clear), or ref to a nested `IndexNode` (context flag
set). -/
inductive Entry where
  | taggedKey (k : Nat)
  | keyList (ks : List Nat)
  | subnode (nd : IndexNode)

/-- One radix tree node (`IndexNode` for `ChunkWidth = 6`). -/
inductive IndexNode where
  | node (pop0 pop1 : Nat) (pfx : List Nat) (nulls : NullSlot) (children : List Entry)
end

def IndexNode.pop0 : IndexNode → Nat
  | .node p _ _ _ _ => p

def IndexNode.pop1 : IndexNode → Nat
  | .node _ p _ _ _ => p

def IndexNode.pfx : IndexNode → List Nat
  | .node _ _ p _ _ => p

def IndexNode.nulls : IndexNode → NullSlot
  | .node _ _ _ n _ => n

def IndexNode.children : IndexNode → List Entry
  | .node _ _ _ _ c => c

/-- `c_num_metadata_entries` = 5. -/
def metadataSlots : Nat := 5

/-- Physical `Array::size()` of a node: metadata plus the children area. -/
def IndexNode.arraySize (nd : IndexNode) : Nat := metadataSlots + nd.children.length

/-- `IndexNode::create`: five zeroed metadata slots, populations zero. -/
def emptyNode : IndexNode := .node 0 0 [] .vacant []

/-- `IndexNode::is_empty` (radix_tree.cpp): both populations zero and the
nulls slot zero. -/
def IndexNode.isEmptyPop (nd : IndexNode) : Bool :=
  nd.pop0 == 0 && nd.pop1 == 0 && nd.nulls == .vacant

/-- `IndexNode<ChunkWidth>::is_empty` (radix_tree_templates.cpp): the array
holds only the metadata slots and the nulls slot is zero. -/
def IndexNode.isEmptySize (nd : IndexNode) : Bool :=
  nd.children.length == 0 && nd.nulls == .vacant

/-- `IndexNode::verify`: the number of children equals the total population
count (`size == c_num_metadata_entries + popcounts`). -/
def IndexNode.verifyChk (nd : IndexNode) : Except TreeErr Unit :=
  if metadataSlots + popcount nd.pop0 + popcount nd.pop1 = nd.arraySize then
    .ok ()
  else
    .error .verifyFailed

/-! ### Chunk extraction (`IndexKey<6>` over integers)

`IndexKey<6>::get()` reads 6-bit chunks left-to-right from the 64-bit two's
complement pattern; `is_last()` first holds at offset 10, so an integer key
is the list of its chunks at offsets 0..10 (ten 6-bit chunks and one final
4-bit chunk).  A null `Mixed` has no chunks at all (`get()` is `nullopt`),
which the API level models as `Option.none`. -/

/-- `c_int_mask` for `ChunkWidth = 6`: the top six bits of a 64-bit word. -/
def intMask : Nat := ((2 ^ 64 - 1) >>> 58) <<< 58

/-- `IndexKey<6>::get()` at offset `i` for the 64-bit pattern `v`. -/
def chunkAt (v i : Nat) : Nat :=
  let rsh := if (1 + i) * 6 < 64 then 64 - (1 + i) * 6 else 0
  ((v % 2 ^ 64) &&& (intMask >>> (i * 6))) >>> rsh

/-- The chunk sequence of one 64-bit integer key (offsets 0..10). -/
def intChunks (v : Nat) : List Nat := (List.range 11).map (chunkAt v)

/-- `uint64_t(m_mixed.get<Int>())`: two's complement of the int64 value. -/
def encodeInt (v : Int) : Nat := (v % (2 ^ 64 : Int)).toNat

/-- An integer column value as stored in the index: `none` is SQL-style null. -/
def mixedChunks (v : Option Int) : Option (List Nat) :=
  v.map (fun i => intChunks (encodeInt i))

/-! ### Sorted ObjKey lists

Modelled from the spec: `IntegerColumn` (`realm/column_integer.hpp`, not
among the sources at hand) stores the ObjKeys sharing one value as a sorted
list without duplicates; insertion places the new key at its sorted position
and `find_first` returns the position of an equal element. -/

def listInsertSorted (l : List Nat) (k : Nat) : List Nat :=
  match l with
  | [] => [k]
  | x :: xs => if k < x then k :: x :: xs else x :: listInsertSorted xs k

def listFindEq (l : List Nat) (k : Nat) : Option Nat :=
  match l with
  | [] => none
  | x :: xs => if x = k then some 0 else (listFindEq xs k).map (· + 1)

/-! ### Population bitmap arithmetic -/

/-- `IndexNode::do_insert_to_population` (radix_tree.cpp:648): set the bit
for chunk `v`, returning whether it already existed, the physical index of
the corresponding child slot, and the updated node. -/
def doInsertToPop (nd : IndexNode) (v : Nat) : Except TreeErr (Bool × Nat × IndexNode) :=
  if v ≤ 63 + 63 then
    if v < 63 then
      let population := nd.pop0
      if population.testBit v = false then
        let population := population ||| 1 <<< v
        let realIndex := metadataSlots + popcount ((population <<< (63 - v)) % 2 ^ 64) - 1
        .ok (false, realIndex, .node population nd.pop1 nd.pfx nd.nulls nd.children)
      else
        let realIndex := metadataSlots + popcount ((population <<< (63 - v)) % 2 ^ 64) - 1
        .ok (true, realIndex, nd)
    else
      let v' := v - 63
      let population₁ := nd.pop1
      if population₁.testBit v' = false then
        let population₁ := population₁ ||| 1 <<< v'
        let realIndex := metadataSlots + popcount ((population₁ <<< (63 - v')) % 2 ^ 64)
          + popcount nd.pop0 - 1
        .ok (false, realIndex, .node nd.pop0 population₁ nd.pfx nd.nulls nd.children)
      else
        let realIndex := metadataSlots + popcount ((population₁ <<< (63 - v')) % 2 ^ 64)
          + popcount nd.pop0 - 1
        .ok (true, realIndex, nd)
  else
    .error .assertViolation

/-- `IndexNode::index_of` (radix_tree.cpp:680) for a present chunk: the
physical index of the child slot for chunk `v`, or `none` when the
population bit is clear. -/
def indexOfChunk (nd : IndexNode) (v : Nat) : Option Nat :=
  if v < 63 then
    if nd.pop0.testBit v = false then none
    else some (metadataSlots + popcount ((nd.pop0 <<< (63 - v)) % 2 ^ 64) - 1)
  else
    let v' := v - 63
    if nd.pop1.testBit v' = false then none
    else some (metadataSlots + popcount ((nd.pop1 <<< (63 - v')) % 2 ^ 64) + popcount nd.pop0 - 1)

/-- `IndexNode::do_remove` (radix_tree.cpp:199): remove the slot at
`rawIndex` (the nulls slot or a child) and clear the corresponding
population bit; returns the updated node and whether it became empty. -/
def doRemove (nd : IndexNode) (rawIndex : Nat) : Except TreeErr (IndexNode × Bool) :=
  if rawIndex = 4 then
    let nd' : IndexNode := .node nd.pop0 nd.pop1 nd.pfx .vacant nd.children
    .ok (nd', nd'.isEmptyPop)
  else if rawIndex < metadataSlots then
    .error .assertViolation
  else if rawIndex - metadataSlots < nd.children.length then
    let children' := nd.children.eraseIdx (rawIndex - metadataSlots)
    if nd.pop0 = 0 ∧ nd.pop1 = 0 then .error .assertViolation
    else
      let bitN := rawIndex - metadataSlots
      let bits0 := popcount nd.pop0
      if bits0 > bitN then
        let idx := nthSetBit nd.pop0 bitN
        if nd.pop0.testBit idx = false then .error .assertViolation
        else
          let pop0' := nd.pop0 &&& compl64 (1 <<< idx)
          let nd' : IndexNode := .node pop0' nd.pop1 nd.pfx nd.nulls children'
          .ok (nd', pop0' == 0 && nd.pop1 == 0 && nd.nulls == .vacant)
      else
        let idx := nthSetBit nd.pop1 (bitN - bits0)
        if nd.pop1.testBit idx = false then .error .assertViolation
        else
          let pop1' := nd.pop1 &&& compl64 (1 <<< idx)
          let nd' : IndexNode := .node nd.pop0 pop1' nd.pfx nd.nulls children'
          .ok (nd', nd.pop0 == 0 && pop1' == 0 && nd.nulls == .vacant)
  else
    .error .assertViolation

/-! ### Children area as an `Array` -/

/-- `Array::insert` into the children area (position `j` counts from the
first child); out-of-bounds positions abort. -/
def childInsertAt (nd : IndexNode) (j : Nat) (e : Entry) : Except TreeErr IndexNode :=
  if j ≤ nd.children.length then
    .ok (.node nd.pop0 nd.pop1 nd.pfx nd.nulls (nd.children.insertIdx j e))
  else
    .error .assertViolation

/-- `Array::set` on an existing child slot; out-of-bounds positions abort. -/
def childSetAt (nd : IndexNode) (j : Nat) (e : Entry) : Except TreeErr IndexNode :=
  if j < nd.children.length then
    .ok (.node nd.pop0 nd.pop1 nd.pfx nd.nulls (nd.children.set j e))
  else
    .error .assertViolation

/-- `Array::get` of a child slot. -/
def childGet (nd : IndexNode) (j : Nat) : Except TreeErr Entry :=
  match nd.children.get? j with
  | some e => .ok e
  | none => .error .assertViolation

/-! ### Insertion -/

/-- `IndexKey::advance_to_common_prefix`: how many leading chunks of the key
`cs` agree with the stored path `ex`; the key's final chunk is never
consumed (`is_last()` stops the walk). -/
def sharedLen (ex cs : List Nat) : Nat :=
  match ex, cs with
  | e :: ex', c :: c2 :: cs' => if c = e then sharedLen ex' (c2 :: cs') + 1 else 0
  | _, _ => 0

/-- `IndexNode::do_prefix_insert` (radix_tree.cpp:571): absorb the key into
this node's compressed path, splitting the node when the path diverges;
returns the updated node and the number of key chunks consumed. -/
def doPfxInsert (nd : IndexNode) (cs : List Nat) : Except TreeErr (IndexNode × Nat) :=
  if nd.isEmptyPop then
    .ok (.node nd.pop0 nd.pop1 (cs.take (cs.length - 1)) nd.nulls nd.children, cs.length - 1)
  else
    let ex := nd.pfx
    if ex.length = 0 then .ok (nd, 0)
    else
      let s := sharedLen ex cs
      if s = ex.length then .ok (nd, s)
      else do
        -- split: this node's entire body moves into a fresh child node,
        -- the nulls slot moves up, and the diverging path chunk becomes
        -- the single population bit of the rebuilt node
        let splitNode : IndexNode := .node nd.pop0 nd.pop1 (ex.drop (s + 1)) .vacant nd.children
        let base : IndexNode := .node 0 0 (cs.take s) nd.nulls []
        let psplit := ex.getD s 0
        let r ← doInsertToPop base psplit
        let base' := r.2.2
        .ok (.node base'.pop0 base'.pop1 base'.pfx base'.nulls [.subnode splitNode], s)

/-- `IndexNode::do_add_direct` at the nulls slot (insert of a null key). -/
def insertNull (k : Nat) (nd : IndexNode) : Except TreeErr IndexNode :=
  match nd.nulls with
  | .taggedKey existing =>
    if existing = k then .error .assertViolation
    else do
      let l := if existing < k then [existing, k] else [k, existing]
      let nd' : IndexNode := .node nd.pop0 nd.pop1 nd.pfx (.keyList l) nd.children
      let _ ← nd'.verifyChk
      return nd'
  | .vacant => do
    let nd' : IndexNode :=
      if k < 2 ^ 63 then .node nd.pop0 nd.pop1 nd.pfx (.taggedKey k) nd.children
      else .node nd.pop0 nd.pop1 nd.pfx (.keyList [k]) nd.children
    let _ ← nd'.verifyChk
    return nd'
  | .keyList l =>
    match listFindEq l k with
    | some _ => .error .assertViolation
    | none => do
      let nd' : IndexNode := .node nd.pop0 nd.pop1 nd.pfx (.keyList (listInsertSorted l k)) nd.children
      let _ ← nd'.verifyChk
      return nd'

/-- `IndexNode::insert` (radix_tree.cpp:140) for a non-null key, with the
branches of `do_add_direct` (radix_tree.cpp:82) that drive the walk, as a
functional rebuild of the mutated accessor chain.  The walk consumes at
least one chunk per descent, so fuel `cs.length` (supplied by `insertAux`)
always suffices; the fuel only makes the recursion structural. -/
def insertGo (k : Nat) : Nat → IndexNode → List Nat → Except TreeErr IndexNode
  | 0, _, _ => .error .assertViolation
  | fuel + 1, nd, cs =>
  if cs.isEmpty then .error .assertViolation
  else do
    let r ← doPfxInsert nd cs
    let nd1 := r.1
    let s := r.2
    match hcs1 : cs.drop s with
    | [] => .error .assertViolation
    | c :: rest => do
      let ri ← doInsertToPop nd1 c
      let didExist := ri.1
      let j := ri.2.1 - metadataSlots
      let nd2 := ri.2.2
      if didExist then
        -- entry already exists: do_add_direct
        let e ← childGet nd2 j
        match e with
        | .taggedKey existing =>
          if rest.isEmpty = false then .error .assertViolation
          else if existing = k then .error .assertViolation
          else do
            let l := if existing < k then [existing, k] else [k, existing]
            let nd3 ← childSetAt nd2 j (.keyList l)
            let _ ← nd3.verifyChk
            return nd3
        | .keyList l =>
          if rest.isEmpty = false then .error .assertViolation
          else
            match listFindEq l k with
            | some _ => .error .assertViolation
            | none => do
              let nd3 ← childSetAt nd2 j (.keyList (listInsertSorted l k))
              let _ ← nd3.verifyChk
              return nd3
        | .subnode sub => do
          let sub' ← insertGo k fuel sub rest
          let nd3 ← childSetAt nd2 j (.subnode sub')
          let _ ← nd3.verifyChk
          return nd3
      else
        if rest.isEmpty then
          if k < 2 ^ 63 then do
            let nd3 ← childInsertAt nd2 j (.taggedKey k)
            let _ ← nd3.verifyChk
            return nd3
          else do
            -- the source stores the fresh one-element list with Array::set
            -- (radix_tree.cpp:170), not Array::insert
            let nd3 ← childSetAt nd2 j (.keyList [k])
            let _ ← nd3.verifyChk
            return nd3
        else do
          let child ← insertGo k fuel emptyNode rest
          let nd3 ← childInsertAt nd2 j (.subnode child)
          let _ ← nd3.verifyChk
          return nd3

/-- `IndexNode::insert` for a non-null key. -/
def insertAux (k : Nat) (nd : IndexNode) (cs : List Nat) : Except TreeErr IndexNode :=
  insertGo k cs.length nd cs

/-- `IndexNode::insert` at the top level: a `none` key is the null value. -/
def insertKey (nd : IndexNode) (k : Nat) (key : Option (List Nat)) : Except TreeErr IndexNode :=
  match key with
  | none => insertNull k nd
  | some cs => insertAux k nd cs

/-- `RadixTree<6>::insert(ObjKey, const Mixed&)` on a nullable int column. -/
def insertInt (nd : IndexNode) (k : Nat) (v : Option Int) : Except TreeErr IndexNode :=
  insertKey nd k (mixedChunks v)

/-! ### Lookup -/

/-- What `IndexIterator` points at after a successful `find_first`: a tagged
ObjKey, or a stored list (with `m_list_position = 0`). -/
inductive FindHit where
  | one (k : Nat)
  | many (ks : List Nat)
  deriving DecidableEq, Repr

/-- `IndexNode::find_first` (radix_tree.cpp:275) for a non-null key: match
the compressed path chunk by chunk, locate the child slot through the
population bitmaps, and descend.  Fuel `cs.length` always suffices. -/
def findGo : Nat → IndexNode → List Nat → Except TreeErr (Option FindHit)
  | 0, _, _ => .error .assertViolation
  | fuel + 1, nd, cs =>
  if cs.take nd.pfx.length = nd.pfx ∧ nd.pfx.length < cs.length then
    match hcs1 : cs.drop nd.pfx.length with
    | [] => .error .assertViolation
    | c :: rest =>
      match indexOfChunk nd c with
      | none => .ok none
      | some realIdx => do
        let e ← childGet nd (realIdx - metadataSlots)
        match e with
        | .taggedKey k =>
          if rest.isEmpty = false then .error .assertViolation
          else .ok (some (.one k))
        | .keyList l =>
          if rest.isEmpty = false then .error .assertViolation
          else if l.isEmpty then .error .assertViolation
          else .ok (some (.many l))
        | .subnode sub => findGo fuel sub rest
  else
    .ok none

/-- `IndexNode::find_first` for a non-null key. -/
def findAux (nd : IndexNode) (cs : List Nat) : Except TreeErr (Option FindHit) :=
  findGo cs.length nd cs

/-- `IndexNode::find_first` at the top level: null keys consult the root's
nulls slot. -/
def findKey (nd : IndexNode) (key : Option (List Nat)) : Except TreeErr (Option FindHit) :=
  match key with
  | none =>
    match nd.nulls with
    | .vacant => .ok none
    | .taggedKey k => .ok (some (.one k))
    | .keyList l => if l.isEmpty then .error .assertViolation else .ok (some (.many l))
  | some cs => findAux nd cs

/-- `RadixTree<6>::find_first`: the first ObjKey stored for the value
(`IndexIterator::get_key`). -/
def findFirstInt (nd : IndexNode) (v : Option Int) : Except TreeErr (Option Nat) := do
  let hit ← findKey nd (mixedChunks v)
  match hit with
  | none => return none
  | some (.one k) => return (some k)
  | some (.many l) => return l.head?

/-- `RadixTree<6>::count` via `IndexIterator::num_matches`: one match for a
tagged entry, the list size for a stored list. -/
def countInt (nd : IndexNode) (v : Option Int) : Except TreeErr Nat := do
  let hit ← findKey nd (mixedChunks v)
  match hit with
  | none => return 0
  | some (.one _) => return 1
  | some (.many l) => return l.length

/-! ### Erase -/

/-- `IndexNode::erase` (radix_tree.cpp:230) for a non-null key: locate the
value's slot as `find_first` does (a missed lookup fails the iterator
assertion), remove the ObjKey, and collapse emptied nodes bottom-up.  Fuel
`cs.length` always suffices. -/
def eraseGo (k : Nat) : Nat → IndexNode → List Nat → Except TreeErr IndexNode
  | 0, _, _ => .error .assertViolation
  | fuel + 1, nd, cs =>
  if cs.take nd.pfx.length = nd.pfx ∧ nd.pfx.length < cs.length then
    match hcs1 : cs.drop nd.pfx.length with
    | [] => .error .assertViolation
    | c :: rest =>
      match indexOfChunk nd c with
      | none => .error .assertViolation
      | some realIdx => do
        let e ← childGet nd (realIdx - metadataSlots)
        match e with
        | .taggedKey _ =>
          if rest.isEmpty = false then .error .assertViolation
          else do
            let r ← doRemove nd realIdx
            return r.1
        | .keyList l =>
          if rest.isEmpty = false then .error .assertViolation
          else if l.isEmpty then .error .assertViolation
          else
            match listFindEq l k with
            | none => .error .assertViolation
            | some i =>
              let l' := l.eraseIdx i
              if l'.isEmpty then do
                let r ← doRemove nd realIdx
                return r.1
              else
                childSetAt nd (realIdx - metadataSlots) (.keyList l')
        | .subnode sub => do
          let sub' ← eraseGo k fuel sub rest
          if sub'.isEmptyPop then do
            let r ← doRemove nd realIdx
            return r.1
          else
            childSetAt nd (realIdx - metadataSlots) (.subnode sub')
  else
    .error .assertViolation

/-- `IndexNode::erase` for a non-null key. -/
def eraseAux (k : Nat) (nd : IndexNode) (cs : List Nat) : Except TreeErr IndexNode :=
  eraseGo k cs.length nd cs

/-- `IndexNode::erase` at the top level, handling null keys at the root.
The root node is never destroyed, even when it becomes empty. -/
def eraseKey (nd : IndexNode) (k : Nat) (key : Option (List Nat)) : Except TreeErr IndexNode :=
  match key with
  | none =>
    match nd.nulls with
    | .vacant => .error .assertViolation
    | .taggedKey _ => do
      let r ← doRemove nd 4
      return r.1
    | .keyList l =>
      if l.isEmpty then .error .assertViolation
      else
        match listFindEq l k with
        | none => .error .assertViolation
        | some i =>
          let l' := l.eraseIdx i
          if l'.isEmpty then do
            let r ← doRemove nd 4
            return r.1
          else
            .ok (.node nd.pop0 nd.pop1 nd.pfx (.keyList l') nd.children)
  | some cs => eraseAux k nd cs

/-- `RadixTree<6>::erase(ObjKey, const Mixed&)` on a nullable int column. -/
def eraseInt (nd : IndexNode) (k : Nat) (v : Option Int) : Except TreeErr IndexNode :=
  eraseKey nd k (mixedChunks v)

/-! ### Duplicates, clear, well-formedness -/

mutual
/-- `IndexNode::has_duplicate_values` (radix_tree.cpp:706): any stored list
(of nulls or of ObjKeys) witnesses duplicates. -/
def hasDupNode : IndexNode → Bool
  | .node _ _ _ nulls ch =>
    (match nulls with | .keyList _ => true | _ => false) || hasDupEntries ch

def hasDupEntries : List Entry → Bool
  | [] => false
  | e :: rest => hasDupEntry e || hasDupEntries rest

def hasDupEntry : Entry → Bool
  | .taggedKey _ => false
  | .keyList _ => true
  | .subnode nd => hasDupNode nd
end

/-- `IndexNode::clear` (radix_tree.cpp:401): truncate the children area,
zero the nulls slot and both populations; the path slots are not touched. -/
def clearNode (nd : IndexNode) : IndexNode :=
  .node 0 0 nd.pfx .vacant []

mutual
/-- Structural invariant of a committed node, recursively: each population
bitmap fits its tagged 63-bit slot, the stored path chunks are `ChunkWidth`
sized (below 64), and the children area is exactly as large as the total
population count (what `verify()` checks node-locally). -/
def nodeWf : IndexNode → Bool
  | .node p0 p1 pfx _ ch =>
    decide (p0 < 2 ^ 63) && decide (p1 < 2 ^ 63)
      && pfx.all (fun c => decide (c < 64))
      && (ch.length == popcount p0 + popcount p1) && entriesWf ch

def entriesWf : List Entry → Bool
  | [] => true
  | e :: rest => entryWf e && entriesWf rest

def entryWf : Entry → Bool
  | .taggedKey _ => true
  | .keyList _ => true
  | .subnode nd => nodeWf nd
end

mutual
/-- The claimed committed-state invariant, per node and recursively: the
node is empty (in the array-size sense of
`IndexNode<ChunkWidth>::is_empty`) exactly when both population bitmaps and
the nulls slot are zero (the sense of `IndexNode::is_empty`), and the
array size is the five metadata slots plus the two popcounts. -/
def invNode : IndexNode → Bool
  | .node p0 p1 pfx nulls ch =>
    ((IndexNode.node p0 p1 pfx nulls ch).isEmptySize
        == (IndexNode.node p0 p1 pfx nulls ch).isEmptyPop)
      && ((IndexNode.node p0 p1 pfx nulls ch).arraySize
        == metadataSlots + popcount p0 + popcount p1)
      && invEntries ch

def invEntries : List Entry → Bool
  | [] => true
  | e :: rest => invEntry e && invEntries rest

def invEntry : Entry → Bool
  | .taggedKey _ => true
  | .keyList _ => true
  | .subnode nd => invNode nd
end

/-- The shape of an insert that touches no compressed path and no tagged
entry: every walked node is nonempty and shares its whole path with the
key, and the terminal position is either a clear population bit (with a
63-bit representable ObjKey) or an existing list that does not yet hold the
key.  These are exactly the inserts that `erase` undoes slot-for-slot. -/
def cleanGo (k : Nat) : Nat → IndexNode → List Nat → Bool
  | 0, _, _ => false
  | fuel + 1, nd, cs =>
    !nd.isEmptyPop
      && (sharedLen nd.pfx cs == nd.pfx.length)
      && (match cs.drop nd.pfx.length with
          | [] => false
          | c :: rest =>
            decide (c < 64)
              && (match indexOfChunk nd c with
                  | none => decide (k < 2 ^ 63) && rest.isEmpty
                  | some realIdx =>
                    match nd.children.get? (realIdx - metadataSlots) with
                    | some (.keyList l) => rest.isEmpty && !l.isEmpty && (listFindEq l k).isNone
                    | some (.subnode sub) => !rest.isEmpty && cleanGo k fuel sub rest
                    | _ => false))

def cleanInsert (k : Nat) (nd : IndexNode) (cs : List Nat) : Bool :=
  cleanGo k cs.length nd cs

/-- The walk of an insert whose terminal entry is the tagged ObjKey `k`
itself: every node shares its whole path with the key and the terminal
slot holds `Entry.taggedKey k`. -/
def walkTaggedGo (k : Nat) : Nat → IndexNode → List Nat → Bool
  | 0, _, _ => false
  | fuel + 1, nd, cs =>
    !nd.isEmptyPop
      && (sharedLen nd.pfx cs == nd.pfx.length)
      && (match cs.drop nd.pfx.length with
          | [] => false
          | c :: rest =>
            decide (c < 64)
              && (match indexOfChunk nd c with
                  | none => false
                  | some realIdx =>
                    match nd.children.get? (realIdx - metadataSlots) with
                    | some (.taggedKey e) => rest.isEmpty && (e == k)
                    | some (.subnode sub) => !rest.isEmpty && walkTaggedGo k fuel sub rest
                    | _ => false))

def walkToTagged (k : Nat) (nd : IndexNode) (cs : List Nat) : Bool :=
  walkTaggedGo k cs.length nd cs

/-! ## Concrete states for the end-to-end scenarios

Intermediate index states of the S1 scenario (insert rows 0..10 with
values `[0, 1, 2, 3, 4, 4, 5, 5, 5, null, -1]`, then erase them all), of
the insert-erase round trip on an empty index, and of the tombstone
insert; each is the literal value the modelled operations produce. -/

/-- The S1 rows: `(ObjKey, column value)`, row `r` keyed by `ObjKey r`. -/
def s1Rows : List (Nat × Option Int) :=
  [(0, some 0), (1, some 1), (2, some 2), (3, some 3), (4, some 4), (5, some 4),
   (6, some 5), (7, some 5), (8, some 5), (9, none), (10, some (-1))]

/-- Insert a batch of rows in order (as `SearchIndex::insert_bulk` does). -/
def buildIndexInt : IndexNode → List (Nat × Option Int) → Except TreeErr IndexNode
  | nd, [] => .ok nd
  | nd, p :: rest => (insertInt nd p.1 p.2).bind (fun nd1 => buildIndexInt nd1 rest)

/-- Erase a batch of rows in order. -/
def eraseAllInt : IndexNode → List (Nat × Option Int) → Except TreeErr IndexNode
  | nd, [] => .ok nd
  | nd, p :: rest => (eraseInt nd p.1 p.2).bind (fun nd1 => eraseAllInt nd1 rest)

def s1A1 : IndexNode :=
  (IndexNode.node 1 0 [0, 0, 0, 0, 0, 0, 0, 0, 0, 0] NullSlot.vacant [(Entry.taggedKey 0)])

def s1A2 : IndexNode :=
  (IndexNode.node 3 0 [0, 0, 0, 0, 0, 0, 0, 0, 0, 0] NullSlot.vacant [(Entry.taggedKey 0), (Entry.taggedKey 1)])

def s1A3 : IndexNode :=
  (IndexNode.node 7 0 [0, 0, 0, 0, 0, 0, 0, 0, 0, 0] NullSlot.vacant [(Entry.taggedKey 0), (Entry.taggedKey 1), (Entry.taggedKey 2)])

def s1A4 : IndexNode :=
  (IndexNode.node 15 0 [0, 0, 0, 0, 0, 0, 0, 0, 0, 0] NullSlot.vacant [(Entry.taggedKey 0), (Entry.taggedKey 1), (Entry.taggedKey 2), (Entry.taggedKey 3)])

def s1A5 : IndexNode :=
  (IndexNode.node 31 0 [0, 0, 0, 0, 0, 0, 0, 0, 0, 0] NullSlot.vacant [(Entry.taggedKey 0), (Entry.taggedKey 1), (Entry.taggedKey 2), (Entry.taggedKey 3), (Entry.taggedKey 4)])

def s1A6 : IndexNode :=
  (IndexNode.node 31 0 [0, 0, 0, 0, 0, 0, 0, 0, 0, 0] NullSlot.vacant [(Entry.taggedKey 0), (Entry.taggedKey 1), (Entry.taggedKey 2), (Entry.taggedKey 3), (Entry.keyList [4, 5])])

def s1A7 : IndexNode :=
  (IndexNode.node 63 0 [0, 0, 0, 0, 0, 0, 0, 0, 0, 0] NullSlot.vacant [(Entry.taggedKey 0), (Entry.taggedKey 1), (Entry.taggedKey 2), (Entry.taggedKey 3), (Entry.keyList [4, 5]), (Entry.taggedKey 6)])

def s1A8 : IndexNode :=
  (IndexNode.node 63 0 [0, 0, 0, 0, 0, 0, 0, 0, 0, 0] NullSlot.vacant [(Entry.taggedKey 0), (Entry.taggedKey 1), (Entry.taggedKey 2), (Entry.taggedKey 3), (Entry.keyList [4, 5]), (Entry.keyList [6, 7])])

def s1A9 : IndexNode :=
  (IndexNode.node 63 0 [0, 0, 0, 0, 0, 0, 0, 0, 0, 0] NullSlot.vacant [(Entry.taggedKey 0), (Entry.taggedKey 1), (Entry.taggedKey 2), (Entry.taggedKey 3), (Entry.keyList [4, 5]), (Entry.keyList [6, 7, 8])])

def s1A10 : IndexNode :=
  (IndexNode.node 63 0 [0, 0, 0, 0, 0, 0, 0, 0, 0, 0] (NullSlot.taggedKey 9) [(Entry.taggedKey 0), (Entry.taggedKey 1), (Entry.taggedKey 2), (Entry.taggedKey 3), (Entry.keyList [4, 5]), (Entry.keyList [6, 7, 8])])

def s1A11 : IndexNode :=
  (IndexNode.node 1 1 [] (NullSlot.taggedKey 9) [(Entry.subnode (IndexNode.node 63 0 [0, 0, 0, 0, 0, 0, 0, 0, 0] NullSlot.vacant [(Entry.taggedKey 0), (Entry.taggedKey 1), (Entry.taggedKey 2), (Entry.taggedKey 3), (Entry.keyList [4, 5]), (Entry.keyList [6, 7, 8])])), (Entry.subnode (IndexNode.node 32768 0 [63, 63, 63, 63, 63, 63, 63, 63, 63] NullSlot.vacant [(Entry.taggedKey 10)]))])

def s1B1 : IndexNode :=
  (IndexNode.node 1 1 [] (NullSlot.taggedKey 9) [(Entry.subnode (IndexNode.node 62 0 [0, 0, 0, 0, 0, 0, 0, 0, 0] NullSlot.vacant [(Entry.taggedKey 1), (Entry.taggedKey 2), (Entry.taggedKey 3), (Entry.keyList [4, 5]), (Entry.keyList [6, 7, 8])])), (Entry.subnode (IndexNode.node 32768 0 [63, 63, 63, 63, 63, 63, 63, 63, 63] NullSlot.vacant [(Entry.taggedKey 10)]))])

def s1B2 : IndexNode :=
  (IndexNode.node 1 1 [] (NullSlot.taggedKey 9) [(Entry.subnode (IndexNode.node 60 0 [0, 0, 0, 0, 0, 0, 0, 0, 0] NullSlot.vacant [(Entry.taggedKey 2), (Entry.taggedKey 3), (Entry.keyList [4, 5]), (Entry.keyList [6, 7, 8])])), (Entry.subnode (IndexNode.node 32768 0 [63, 63, 63, 63, 63, 63, 63, 63, 63] NullSlot.vacant [(Entry.taggedKey 10)]))])

def s1B3 : IndexNode :=
  (IndexNode.node 1 1 [] (NullSlot.taggedKey 9) [(Entry.subnode (IndexNode.node 56 0 [0, 0, 0, 0, 0, 0, 0, 0, 0] NullSlot.vacant [(Entry.taggedKey 3), (Entry.keyList [4, 5]), (Entry.keyList [6, 7, 8])])), (Entry.subnode (IndexNode.node 32768 0 [63, 63, 63, 63, 63, 63, 63, 63, 63] NullSlot.vacant [(Entry.taggedKey 10)]))])

def s1B4 : IndexNode :=
  (IndexNode.node 1 1 [] (NullSlot.taggedKey 9) [(Entry.subnode (IndexNode.node 48 0 [0, 0, 0, 0, 0, 0, 0, 0, 0] NullSlot.vacant [(Entry.keyList [4, 5]), (Entry.keyList [6, 7, 8])])), (Entry.subnode (IndexNode.node 32768 0 [63, 63, 63, 63, 63, 63, 63, 63, 63] NullSlot.vacant [(Entry.taggedKey 10)]))])

def s1B5 : IndexNode :=
  (IndexNode.node 1 1 [] (NullSlot.taggedKey 9) [(Entry.subnode (IndexNode.node 48 0 [0, 0, 0, 0, 0, 0, 0, 0, 0] NullSlot.vacant [(Entry.keyList [5]), (Entry.keyList [6, 7, 8])])), (Entry.subnode (IndexNode.node 32768 0 [63, 63, 63, 63, 63, 63, 63, 63, 63] NullSlot.vacant [(Entry.taggedKey 10)]))])

def s1B6 : IndexNode :=
  (IndexNode.node 1 1 [] (NullSlot.taggedKey 9) [(Entry.subnode (IndexNode.node 32 0 [0, 0, 0, 0, 0, 0, 0, 0, 0] NullSlot.vacant [(Entry.keyList [6, 7, 8])])), (Entry.subnode (IndexNode.node 32768 0 [63, 63, 63, 63, 63, 63, 63, 63, 63] NullSlot.vacant [(Entry.taggedKey 10)]))])

def s1B7 : IndexNode :=
  (IndexNode.node 1 1 [] (NullSlot.taggedKey 9) [(Entry.subnode (IndexNode.node 32 0 [0, 0, 0, 0, 0, 0, 0, 0, 0] NullSlot.vacant [(Entry.keyList [7, 8])])), (Entry.subnode (IndexNode.node 32768 0 [63, 63, 63, 63, 63, 63, 63, 63, 63] NullSlot.vacant [(Entry.taggedKey 10)]))])

def s1B8 : IndexNode :=
  (IndexNode.node 1 1 [] (NullSlot.taggedKey 9) [(Entry.subnode (IndexNode.node 32 0 [0, 0, 0, 0, 0, 0, 0, 0, 0] NullSlot.vacant [(Entry.keyList [8])])), (Entry.subnode (IndexNode.node 32768 0 [63, 63, 63, 63, 63, 63, 63, 63, 63] NullSlot.vacant [(Entry.taggedKey 10)]))])

def s1B9 : IndexNode :=
  (IndexNode.node 0 1 [] (NullSlot.taggedKey 9) [(Entry.subnode (IndexNode.node 32768 0 [63, 63, 63, 63, 63, 63, 63, 63, 63] NullSlot.vacant [(Entry.taggedKey 10)]))])

def s1B10 : IndexNode :=
  (IndexNode.node 0 1 [] NullSlot.vacant [(Entry.subnode (IndexNode.node 32768 0 [63, 63, 63, 63, 63, 63, 63, 63, 63] NullSlot.vacant [(Entry.taggedKey 10)]))])

def s1B11 : IndexNode :=
  (IndexNode.node 0 0 [] NullSlot.vacant [])

/-- State after `insert(ObjKey 1, 0)` into an empty index: the root keeps
the ten-zero-chunk path of the value. -/
def rtIns : IndexNode :=
  (IndexNode.node 1 0 [0, 0, 0, 0, 0, 0, 0, 0, 0, 0] NullSlot.vacant [(Entry.taggedKey 1)])

/-- State after the subsequent `erase(ObjKey 1, 0)`: empty again, but the
path slots still carry the ten zero chunks. -/
def rtGone : IndexNode :=
  (IndexNode.node 0 0 [0, 0, 0, 0, 0, 0, 0, 0, 0, 0] NullSlot.vacant [])

/-- State after `insert(ObjKey 5, 1)` into an empty index. -/
def tbFirst : IndexNode :=
  (IndexNode.node 2 0 [0, 0, 0, 0, 0, 0, 0, 0, 0, 0] NullSlot.vacant [(Entry.taggedKey 5)])

/-! ## Client reset: pending-reset metadata and the precheck guard

Embedding of `remove_pending_client_resets`, `has_pending_reset`,
`track_reset` and `reset_precheck_guard`
(`realm/sync/noinst/client_reset.cpp:410-558`).  Timestamps are abstract
`Nat` instants; `std::chrono::system_clock::now()` becomes an explicit
`now` argument. -/

inductive ResyncMode where
  | manual
  | discardLocal
  | recover
  | recoverOrDiscard
  deriving DecidableEq, Repr

/-- One row of the `client_reset_metadata` table: `(version, event_time,
type_of_reset)`; the generated ObjectId primary key carries no
information. -/
structure ResetRow where
  version : Int
  eventTime : Nat
  typeOfReset : Int
  deriving DecidableEq, Repr

/-- The local group as far as reset metadata goes: `none` when the
`client_reset_metadata` table does not exist, else its rows. -/
structure LocalGroup where
  resetTable : Option (List ResetRow)
  deriving DecidableEq, Repr

/-- The `ClientResetFailed` (and `REALM_UNREACHABLE`) outcomes of the
precheck path, keyed by their message. -/
inductive ResetErr where
  | tooManyResets
  | unsupportedVersion
  | unsupportedType
  | cyclePrevented (previous : ResyncMode) (mode : ResyncMode)
  | recoveryNotAllowed
  | manualUnreachable
  deriving DecidableEq, Repr

def metadataVersion : Int := 1

/-- `remove_pending_client_resets`: clear the table when it exists and has
rows. -/
def removePendingResets (g : LocalGroup) : LocalGroup :=
  match g.resetTable with
  | none => g
  | some rows => if rows.length ≠ 0 then ⟨some []⟩ else g

/-- `has_pending_reset`: decode the single metadata row, if any. -/
def hasPendingReset (g : LocalGroup) : Except ResetErr (Option (ResyncMode × Nat)) :=
  match g.resetTable with
  | none => .ok none
  | some rows =>
    if rows.length = 0 then .ok none
    else if rows.length > 1 then .error .tooManyResets
    else
      match rows.head? with
      | none => .ok none
      | some first =>
        if first.version > metadataVersion then .error .unsupportedVersion
        else if first.typeOfReset = 0 then .ok (some (.discardLocal, first.eventTime))
        else if first.typeOfReset = 1 then .ok (some (.recover, first.eventTime))
        else .error .unsupportedType

/-- `track_reset`: create the metadata table when missing and add the row
`(version = 1, now, mode)`, recording DiscardLocal as 0 and both Recover
and RecoverOrDiscard as 1. -/
def trackReset (g : LocalGroup) (mode : ResyncMode) (now : Nat) :
    Except ResetErr LocalGroup :=
  if mode = .manual then .error .manualUnreachable
  else
    let rows := match g.resetTable with | none => ([] : List ResetRow) | some rows => rows
    let modeVal : Int := if mode = .recover ∨ mode = .recoverOrDiscard then 1 else 0
    if rows.length > 1 then .error .tooManyResets
    else .ok ⟨some (rows ++ [⟨metadataVersion, now, modeVal⟩])⟩

/-- `reset_precheck_guard` (client_reset.cpp:506): refuse combinations of a
pending reset marker and the requested mode that would cycle, downgrade
`RecoverOrDiscard` where required, and record the effective mode. -/
def resetPrecheckGuard (g : LocalGroup) (mode : ResyncMode) (recoveryIsAllowed : Bool)
    (now : Nat) : Except ResetErr (ResyncMode × LocalGroup) := do
  let previous ← hasPendingReset g
  let step ← (match previous with
    | none => Except.ok (mode, g)
    | some (prevType, _) =>
      match prevType with
      | ResyncMode.manual => Except.error .manualUnreachable
      | ResyncMode.discardLocal => Except.error (.cyclePrevented .discardLocal mode)
      | ResyncMode.recover =>
        match mode with
        | ResyncMode.recover => Except.error (.cyclePrevented .recover .recover)
        | ResyncMode.recoverOrDiscard =>
          Except.ok (ResyncMode.discardLocal, removePendingResets g)
        | ResyncMode.discardLocal =>
          Except.ok (ResyncMode.discardLocal, removePendingResets g)
        | ResyncMode.manual => Except.error .manualUnreachable
      | ResyncMode.recoverOrDiscard => Except.error (.cyclePrevented .recoverOrDiscard mode))
  let mode2 ← (if recoveryIsAllowed = false then
      match step.1 with
      | ResyncMode.recover => Except.error ResetErr.recoveryNotAllowed
      | ResyncMode.recoverOrDiscard => Except.ok ResyncMode.discardLocal
      | m => Except.ok m
    else Except.ok step.1)
  let g2 ← trackReset step.2 mode2 now
  return (mode2, g2)

/-! ## Client reset: transfer_group

Table-level embedding of `transfer_group` (client_reset.cpp:73-408).  A
group is its list of tables; a table carries its name, visibility, type,
primary-key column name, columns and rows.  Column attributes keep the
`col_attr_Indexed` bit apart, since the code strips it before comparing.
Row payloads are abstracted to one opaque value that the converter copies
wholesale. -/

inductive ColShape where
  | scalar
  | list
  | set
  | dictionary
  deriving DecidableEq, Repr

structure Column where
  name : String
  colType : Nat
  nullable : Bool
  shape : ColShape
  indexed : Bool
  linkTarget : Option String
  dictKeyType : Nat
  deriving DecidableEq, Repr

structure TableT where
  name : String
  isPublic : Bool
  embedded : Bool
  pkName : Option String
  cols : List Column
  rows : List (Int × Nat)
  deriving DecidableEq, Repr

inductive XferErr where
  | pkRequired (srcHasPk : Bool) (table : String)
  | pkTypeMismatch (table : String)
  | pkAttrMismatch (table : String)
  | pkNameMismatch (table : String)
  | removedClasses (names : List String)
  | removedColumns (table : String) (names : List String)
  | colTypeMismatch (table : String) (col : String)
  | colAttrMismatch (table : String) (col : String)
  | brokenInvariant
  deriving DecidableEq, Repr

def findTable (g : List TableT) (nm : String) : Option TableT :=
  g.find? (fun t => t.name == nm)

def findCol (t : TableT) (nm : String) : Option Column :=
  t.cols.find? (fun c => c.name == nm)

/-- `Table::get_primary_key_column`. -/
def pkColumn (t : TableT) : Option Column :=
  t.pkName.bind (fun nm => findCol t nm)

/-- `Group::table_name_to_class_name`: strip the `class_` persistence name. -/
def classNameOf (nm : String) : String :=
  if nm.startsWith "class_" then nm.drop 6 else nm

/-- `ColumnAttrMask` comparison after both sides `reset(col_attr_Indexed)`:
everything but the index flag. -/
def attrsSansIndex (c : Column) : Bool × ColShape := (c.nullable, c.shape)

/-- Ordered insertion into the `std::set<std::string>` of names. -/
def insertSortedStr (s : String) : List String → List String
  | [] => [s]
  | x :: xs => if s < x then s :: x :: xs else if s = x then x :: xs else x :: insertSortedStr s xs

/-- First pass of `transfer_group`: walk the destination's public tables,
collecting those absent from the source and checking primary-key
compatibility of those present (client_reset.cpp:86-137). -/
def precheckDstTables (src : List TableT) : List TableT → Except XferErr (List String)
  | [] => .ok []
  | t :: rest =>
    if t.isPublic = false then precheckDstTables src rest
    else
      match findTable src t.name with
      | none => (precheckDstTables src rest).map (insertSortedStr t.name)
      | some tSrc =>
        let pkSrc := pkColumn tSrc
        let pkDst := pkColumn t
        if pkSrc.isSome ≠ pkDst.isSome then .error (.pkRequired pkSrc.isSome t.name)
        else
          match pkSrc, pkDst with
          | none, _ => precheckDstTables src rest
          | some cSrc, some cDst =>
            if cSrc.colType ≠ cDst.colType then .error (.pkTypeMismatch t.name)
            else if attrsSansIndex cSrc ≠ attrsSansIndex cDst then .error (.pkAttrMismatch t.name)
            else if cSrc.name ≠ cDst.name then .error (.pkNameMismatch t.name)
            else precheckDstTables src rest
          | some _, none => .error (.pkRequired true t.name)

/-- Create in dst the public tables present only in src
(client_reset.cpp:166-189): embedded tables bare, top-level tables with the
source's primary-key column. -/
def createMissingTables (src dst : List TableT) : List TableT :=
  dst ++ (src.filterMap (fun tSrc =>
    if tSrc.isPublic = false then none
    else
      match findTable dst tSrc.name with
      | some _ => none
      | none =>
        if tSrc.embedded then
          some { name := tSrc.name, isPublic := tSrc.isPublic, embedded := true,
                 pkName := none, cols := [], rows := [] }
        else
          match pkColumn tSrc with
          | none => none
          | some pk =>
            some { name := tSrc.name, isPublic := tSrc.isPublic, embedded := false,
                   pkName := some pk.name,
                   cols := [{ pk with indexed := true }], rows := [] }))

/-- Columns of dst missing from src for each public src table
(client_reset.cpp:209-236). -/
def checkRemovedColumns (src dst : List TableT) (allowSchemaAdditions : Bool) :
    Except XferErr Unit :=
  src.foldlM (fun _ tSrc => do
    if tSrc.isPublic = false then return ()
    else
      match findTable dst tSrc.name with
      | none => throw .brokenInvariant
      | some tDst =>
        let removed := tDst.cols.filterMap (fun c =>
          match findCol tSrc c.name with
          | some _ => none
          | none => some c.name)
        if allowSchemaAdditions = false ∧ removed ≠ [] then
          throw (.removedColumns tSrc.name removed)
        else return ()) ()

/-- Add to each dst table the columns only src has, and check type and
attribute compatibility of the columns both sides share
(client_reset.cpp:238-313). -/
def addMissingColumns (src : List TableT) (dst : List TableT) :
    Except XferErr (List TableT) :=
  src.foldlM (fun acc tSrc => do
    if tSrc.isPublic = false then return acc
    else
      match findTable acc tSrc.name with
      | none => throw .brokenInvariant
      | some tDst => do
        let newCols ← tSrc.cols.foldlM (fun (cols : List Column) cSrc => do
          match findCol { tDst with cols := cols } cSrc.name with
          | none => return cols ++ [cSrc]
          | some cDst =>
            if cSrc.colType ≠ cDst.colType then
              throw (.colTypeMismatch tSrc.name cSrc.name)
            else if attrsSansIndex cSrc ≠ attrsSansIndex cDst then
              throw (.colAttrMismatch tSrc.name cSrc.name)
            else return cols) tDst.cols
        return acc.map (fun t => if t.name == tSrc.name then { t with cols := newCols } else t))
    dst

/-- Row reconciliation (client_reset.cpp:317-407): drop dst rows whose
primary key src lacks, create the missing ones, then copy values. -/
def syncRows (src : List TableT) (dst : List TableT) : List TableT :=
  dst.map (fun tDst =>
    if tDst.isPublic = false ∨ tDst.embedded then tDst
    else
      match findTable src tDst.name with
      | none => tDst
      | some tSrc =>
        let kept := tDst.rows.filter (fun r => (tSrc.rows.find? (fun s => s.1 == r.1)).isSome)
        let created := tSrc.rows.filter
          (fun s => (kept.find? (fun r => r.1 == s.1)).isNone)
        let merged := kept ++ created
        { tDst with rows := merged.map (fun r =>
            match tSrc.rows.find? (fun s => s.1 == r.1) with
            | some s => (r.1, s.2)
            | none => r) })

/-- `transfer_group` (client_reset.cpp:73): make dst's public tables
identical to src's, failing on destructive schema drift unless
`allow_schema_additions`. -/
def transferGroup (src dst : List TableT) (allowSchemaAdditions : Bool) :
    Except XferErr (List TableT) := do
  let toRemove ← precheckDstTables src dst
  if allowSchemaAdditions = false ∧ toRemove ≠ [] then
    throw (.removedClasses (toRemove.map classNameOf))
  else do
    let dst1 := createMissingTables src dst
    let _ ← checkRemovedColumns src dst1 allowSchemaAdditions
    let dst2 ← addMissingColumns src dst1
    return syncRows src dst2

/-! ## Results (object-store)

Embedding of the parts of `Results` the claims touch
(`realm/object-store/results.cpp`): the mode, the descriptor ordering, the
query, and the `index_of` guards.  The backing data (table rows, table
view, collection items) appears as plain key lists so `index_of(Mixed)` has
something real to search. -/

inductive RMode where
  | empty
  | table
  | collection
  | query
  | tableView
  deriving DecidableEq, Repr

/-- One entry of a `DescriptorOrdering`. -/
inductive Descriptor where
  | sortD (keys : List (String × Bool))
  | distinctD (keys : List String)
  | limitD (n : Nat)
  | filterD (q : Nat)
  deriving DecidableEq, Repr

/-- A query as the list of ANDed conditions (`Query::and_query` appends). -/
structure RQuery where
  conjuncts : List Nat
  deriving DecidableEq, Repr

structure ResultsM where
  mode : RMode
  ordering : List Descriptor
  query : RQuery
  valid : Bool
  tableKey : Option Nat
  tableRows : List Nat
  collectionItems : List Nat
  view : List Nat
  deriving DecidableEq, Repr

inductive ResultsErr where
  | illegalOperation
  | staleAccessor
  | objectTypeMismatch
  deriving DecidableEq, Repr

/-- `DescriptorOrdering::will_apply_limit`. -/
def willApplyLimit (o : List Descriptor) : Bool :=
  o.any (fun d => match d with | .limitD _ => true | _ => false)

/-- `Results::sort(SortDescriptor&&)` (results.cpp:920): a new Results over
the same data with the sort appended to a copy of the ordering. -/
def rSort (r : ResultsM) (s : List (String × Bool)) : ResultsM :=
  { r with ordering := r.ordering ++ [.sortD s],
           mode := if r.mode = .collection then .collection else .query }

/-- `Results::distinct(DistinctDescriptor&&)` (results.cpp:967). -/
def rDistinct (r : ResultsM) (keys : List String) : ResultsM :=
  { r with ordering := r.ordering ++ [.distinctD keys],
           mode := if r.mode = .collection then .collection else .query }

/-- `Results::limit(size_t)` (results.cpp:947). -/
def rLimit (r : ResultsM) (n : Nat) : ResultsM :=
  { r with ordering := r.ordering ++ [.limitD n],
           mode := if r.mode = .collection then .collection else .query }

/-- `Results::filter(Query&&)` (results.cpp:930): refuses a limited
Results, otherwise a new Results over the ANDed query with the ordering
copied unchanged. -/
def rFilter (r : ResultsM) (q : Nat) : Except ResultsErr ResultsM :=
  if willApplyLimit r.ordering then .error .illegalOperation
  else .ok { r with mode := .query, query := ⟨r.query.conjuncts ++ [q]⟩ }

/-- `realm::not_found` / `npos`. -/
def notFoundPos : Nat := 2 ^ 64 - 1

def posOf (l : List Nat) (k : Nat) : Nat :=
  match l.indexOf? k with
  | some i => i
  | none => notFoundPos

/-- `Results::index_of(Mixed)` (results.cpp:537) specialised to object
keys: `validate_read`, then dispatch on the mode and search the backing
store. -/
def indexOfMixedKey (r : ResultsM) (k : Nat) : Except ResultsErr Nat :=
  if r.valid = false then .error .staleAccessor
  else
    match r.mode with
    | .empty => .ok notFoundPos
    | .table => .ok (posOf r.tableRows k)
    | .collection => .ok (posOf r.collectionItems k)
    | .query => .ok (posOf r.view k)
    | .tableView => .ok (posOf r.view k)

/-- A row accessor argument to `Results::index_of(Obj)`. -/
structure ObjM where
  valid : Bool
  tableKey : Nat
  key : Nat
  deriving DecidableEq, Repr

/-- `Results::index_of(Obj)` (results.cpp:523): reject detached accessors
and objects of another table before any lookup. -/
def indexOfObj (r : ResultsM) (o : ObjM) : Except ResultsErr Nat :=
  if o.valid = false then .error .staleAccessor
  else if (match r.tableKey with
           | some t => decide (o.tableKey ≠ t)
           | none => false) then
    .error .objectTypeMismatch
  else indexOfMixedKey r o.key


/-! ### A size measure on nodes (for recursion over the tree) -/

mutual
def ndSize : IndexNode → Nat
  | .node _ _ _ _ ch => entsSize ch + 1

def entsSize : List Entry → Nat
  | [] => 0
  | e :: rest => entSize e + entsSize rest

def entSize : Entry → Nat
  | .taggedKey _ => 0
  | .keyList _ => 0
  | .subnode nd => ndSize nd + 1
end

/-! ## Monad and accessor basics -/


/-! ## Theorems -/

theorem popcount_zero : popcount 0 = 0 := rfl

theorem popcountGo_succ (f n : Nat) :
    popcountGo (f + 1) n = if n = 0 then 0 else popcountGo f (n / 2) + n % 2 := rfl

theorem popcountGo_eq_sum (f : Nat) :
    ∀ n, n < 2 ^ f →
      popcountGo f n = (Finset.range f).sum (fun i => if n.testBit i then 1 else 0) := by
  induction f with
  | zero =>
    intro n hn
    interval_cases n
    simp [popcountGo]
  | succ f ih =>
    intro n hn
    by_cases h0 : n = 0
    · subst h0
      simp [popcountGo, Nat.zero_testBit]
    · rw [popcountGo_succ, if_neg h0]
      have hdiv : n / 2 < 2 ^ f := by
        have : n < 2 ^ f * 2 := by rw [pow_succ] at hn; exact hn
        omega
      rw [ih (n / 2) hdiv]
      rw [Finset.sum_range_succ' (fun i => if n.testBit i then 1 else 0) f]
      simp only [Nat.testBit_succ]
      have hbit0 : (if n.testBit 0 then 1 else 0) = n % 2 := by
        rcases Nat.mod_two_eq_zero_or_one n with h | h <;> simp [Nat.testBit_zero, h]
      omega

/-- Bits above the magnitude of `n` contribute nothing to the bit-count sum. -/
theorem sum_bits_congr (n k k' : Nat) (h : n < 2 ^ k) (hk : k ≤ k') :
    (Finset.range k').sum (fun i => if n.testBit i then 1 else 0)
      = (Finset.range k).sum (fun i => if n.testBit i then 1 else 0) := by
  symm
  apply Finset.sum_subset (Finset.range_subset.mpr hk)
  intro i hi hni
  have hik : k ≤ i := by
    have h1 : i < k' := Finset.mem_range.mp hi
    by_contra hc
    exact hni (Finset.mem_range.mpr (by omega))
  have : n.testBit i = false :=
    Nat.testBit_lt_two_pow (lt_of_lt_of_le h (Nat.pow_le_pow_right (by norm_num) hik))
  simp [this]

/-- `popcount` of a word below `2 ^ k` (for `k ≤ 64`) counts the set bits
among the low `k` positions. -/
theorem popcount_eq_sum (k p : Nat) (hk : k ≤ 64) (hp : p < 2 ^ k) :
    popcount p = (Finset.range k).sum (fun i => if p.testBit i then 1 else 0) := by
  unfold popcount
  rw [popcountGo_eq_sum 64 p (lt_of_lt_of_le hp (Nat.pow_le_pow_right (by norm_num) hk))]
  exact sum_bits_congr p k 64 hp hk

theorem countBelow_eq_sum (p k : Nat) (hk : k ≤ 64) :
    countBelow p k = (Finset.range k).sum (fun i => if p.testBit i then 1 else 0) := by
  unfold countBelow
  rw [popcount_eq_sum k _ hk (Nat.mod_lt _ (Nat.pos_pow_of_pos k (by norm_num)))]
  apply Finset.sum_congr rfl
  intro i hi
  rw [Nat.testBit_mod_two_pow]
  simp [Finset.mem_range.mp hi]

theorem popcount_eq_countBelow (k p : Nat) (hk : k ≤ 64) (hp : p < 2 ^ k) :
    popcount p = countBelow p k := by
  rw [popcount_eq_sum k p hk hp, countBelow_eq_sum p k hk]

theorem countBelow_le (p k k' : Nat) (h : k ≤ k') (hk' : k' ≤ 64) :
    countBelow p k ≤ countBelow p k' := by
  rw [countBelow_eq_sum p k (by omega), countBelow_eq_sum p k' hk']
  apply Finset.sum_le_sum_of_subset
  exact Finset.range_subset.mpr h

theorem countBelow_le_popcount (p k m : Nat) (hp : p < 2 ^ m) (hk : k ≤ m) (hm : m ≤ 64) :
    countBelow p k ≤ popcount p := by
  rw [popcount_eq_countBelow m p hm hp]
  exact countBelow_le p k m hk hm

theorem countBelow_succ_testBit (p k : Nat) (hk : k + 1 ≤ 64) :
    countBelow p (k + 1) = countBelow p k + (if p.testBit k then 1 else 0) := by
  rw [countBelow_eq_sum p (k + 1) hk, countBelow_eq_sum p k (by omega), Finset.sum_range_succ]

theorem countBelow_pos_of_testBit (p b k : Nat) (hb : p.testBit b = true) (hk : b < k)
    (hk64 : k ≤ 64) :
    1 ≤ countBelow p k := by
  rw [countBelow_eq_sum p k hk64]
  have : (if p.testBit b then 1 else 0)
      ≤ (Finset.range k).sum (fun i => if p.testBit i then 1 else 0) :=
    Finset.single_le_sum (f := fun i => if p.testBit i then (1 : Nat) else 0)
      (fun i _ => by positivity) (Finset.mem_range.mpr hk)
  rw [hb] at this
  simpa using this

theorem popcountGo_congr (f f' n : Nat) (h : n < 2 ^ f) (h' : n < 2 ^ f') :
    popcountGo f n = popcountGo f' n := by
  rw [popcountGo_eq_sum f n h, popcountGo_eq_sum f' n h']
  rcases le_total f f' with hle | hle
  · exact (sum_bits_congr n f f' h hle).symm
  · exact sum_bits_congr n f' f h' hle

theorem popcount_mul_two (x : Nat) (hx : x * 2 < 2 ^ 64) :
    popcount (x * 2) = popcount x := by
  by_cases h0 : x = 0
  · subst h0; rfl
  · unfold popcount
    rw [show popcountGo 64 (x * 2)
        = if x * 2 = 0 then 0 else popcountGo 63 (x * 2 / 2) + x * 2 % 2 from rfl]
    rw [if_neg (by omega)]
    have hdiv : x * 2 / 2 = x := by omega
    have hmod : x * 2 % 2 = 0 := by omega
    rw [hdiv, hmod, popcountGo_congr 63 64 x (by omega) (by omega)]
    omega

theorem popcount_shiftLeft_bounded (q s : Nat) (h : q <<< s < 2 ^ 64) :
    popcount (q <<< s) = popcount q := by
  induction s with
  | zero => simp
  | succ s ih =>
    have hmul : q <<< (s + 1) = (q <<< s) * 2 := by
      rw [Nat.shiftLeft_eq, Nat.shiftLeft_eq, pow_succ]; ring
    rw [hmul] at h ⊢
    rw [popcount_mul_two _ h]
    exact ih (by omega)

/-- Shifting left by `s` then truncating to 64 bits keeps exactly the
low `64 - s` bits: the popcount is that of `p % 2 ^ (64 - s)`. -/
theorem popcount_shift_trunc (p s : Nat) (hs : s ≤ 64) :
    popcount ((p <<< s) % 2 ^ 64) = countBelow p (64 - s) := by
  have h1 : (p <<< s) % 2 ^ 64 = (p % 2 ^ (64 - s)) <<< s := by
    rw [Nat.shiftLeft_eq, Nat.shiftLeft_eq]
    have h2 : (2 : Nat) ^ 64 = 2 ^ (64 - s) * 2 ^ s := by
      rw [← pow_add]; congr 1; omega
    rw [h2, Nat.mul_mod_mul_right]
  have hbound : (p % 2 ^ (64 - s)) <<< s < 2 ^ 64 := by
    rw [Nat.shiftLeft_eq]
    calc p % 2 ^ (64 - s) * 2 ^ s < 2 ^ (64 - s) * 2 ^ s := by
          have hlt := Nat.mod_lt p (show 0 < 2 ^ (64 - s) from Nat.pos_pow_of_pos _ (by norm_num))
          have hpos : 0 < 2 ^ s := Nat.pos_pow_of_pos _ (by norm_num)
          exact (Nat.mul_lt_mul_right hpos).mpr hlt
      _ = 2 ^ 64 := by rw [← pow_add]; congr 1; omega
  rw [h1, popcount_shiftLeft_bounded _ s hbound]
  rfl

theorem lor_two_pow_lt (p b k : Nat) (hp : p < 2 ^ k) (hb : b < k) :
    (p ||| 1 <<< b) < 2 ^ k := by
  have : (1 : Nat) <<< b = 2 ^ b := by rw [Nat.shiftLeft_eq, one_mul]
  rw [this]
  exact Nat.or_lt_two_pow hp (Nat.pow_lt_pow_right (by norm_num) hb)

theorem testBit_set_bit (p b i : Nat) :
    (p ||| 1 <<< b).testBit i = (p.testBit i || decide (b = i)) := by
  have hpow : (1 : Nat) <<< b = 2 ^ b := by rw [Nat.shiftLeft_eq, one_mul]
  rw [Nat.testBit_lor, hpow, Nat.testBit_two_pow]

/-- When two words agree on every bit position below `k` except at `b`, their
bit counts below `k` differ exactly by their bits at `b`. -/
theorem sum_bits_update (k b : Nat) (hb : b < k) (p q : Nat)
    (hsame : ∀ i, i < k → i ≠ b → q.testBit i = p.testBit i) :
    (Finset.range k).sum (fun i => if q.testBit i then 1 else 0)
      + (if p.testBit b then 1 else 0)
    = (Finset.range k).sum (fun i => if p.testBit i then 1 else 0)
      + (if q.testBit b then 1 else 0) := by
  have hmem : b ∈ Finset.range k := Finset.mem_range.mpr hb
  have hq := (Finset.sum_erase_add (Finset.range k)
    (fun i => if q.testBit i then 1 else 0) hmem).symm
  have hp := (Finset.sum_erase_add (Finset.range k)
    (fun i => if p.testBit i then 1 else 0) hmem).symm
  have heq : ((Finset.range k).erase b).sum (fun i => if q.testBit i then 1 else 0)
      = ((Finset.range k).erase b).sum (fun i => if p.testBit i then 1 else 0) := by
    apply Finset.sum_congr rfl
    intro i hi
    rw [Finset.mem_erase] at hi
    rw [hsame i (Finset.mem_range.mp hi.2) hi.1]
  omega

/-- Setting a clear bit increments the popcount. -/
theorem popcount_set_bit (p b k : Nat) (hp : p < 2 ^ k) (hb : b < k) (hk : k ≤ 64)
    (hclear : p.testBit b = false) :
    popcount (p ||| 1 <<< b) = popcount p + 1 := by
  have hlt : (p ||| 1 <<< b) < 2 ^ k := lor_two_pow_lt p b k hp hb
  rw [popcount_eq_sum k _ hk hlt, popcount_eq_sum k p hk hp]
  have h := sum_bits_update k b hb p (p ||| 1 <<< b) ?_
  · have hqb : (p ||| 1 <<< b).testBit b = true := by
      rw [testBit_set_bit]; simp
    rw [hclear, hqb] at h
    simp only [if_pos, if_neg, Bool.false_eq_true, if_false, if_true] at h
    omega
  · intro i _ hib
    rw [testBit_set_bit]
    simp [Ne.symm hib]

theorem testBit_clear_bit (p b i : Nat) (hp : p < 2 ^ 64) :
    (p &&& compl64 (1 <<< b)).testBit i = (p.testBit i && !decide (b = i)) := by
  have hpow : (1 : Nat) <<< b = 2 ^ b := by rw [Nat.shiftLeft_eq, one_mul]
  unfold compl64
  rw [Nat.testBit_land, Nat.testBit_xor, hpow, Nat.testBit_two_pow,
    Nat.testBit_two_pow_sub_one]
  by_cases hi : i < 64
  · simp [hi]
  · have : p.testBit i = false :=
      Nat.testBit_lt_two_pow
        (lt_of_lt_of_le hp (Nat.pow_le_pow_right (by norm_num) (by omega)))
    simp [this]

/-- Clearing a set bit decrements the popcount. -/
theorem popcount_clear_bit (p b : Nat) (hp : p < 2 ^ 64) (hb : b < 64)
    (hset : p.testBit b = true) :
    popcount (p &&& compl64 (1 <<< b)) = popcount p - 1 := by
  have hlt : p &&& compl64 (1 <<< b) < 2 ^ 64 :=
    lt_of_le_of_lt (Nat.and_le_left) hp
  rw [popcount_eq_sum 64 _ (le_refl 64) hlt, popcount_eq_sum 64 p (le_refl 64) hp]
  have h := sum_bits_update 64 b hb p (p &&& compl64 (1 <<< b)) ?_
  · have hqb : (p &&& compl64 (1 <<< b)).testBit b = false := by
      rw [testBit_clear_bit p b b hp]; simp
    rw [hset, hqb] at h
    simp only [if_pos, if_neg, Bool.false_eq_true, if_false, if_true] at h
    have hpos : 1 ≤ (Finset.range 64).sum (fun i => if p.testBit i then 1 else 0) := by
      have := countBelow_pos_of_testBit p b 64 hset hb (le_refl 64)
      rw [countBelow_eq_sum p 64 (le_refl 64)] at this
      exact this
    omega
  · intro i _ hib
    rw [testBit_clear_bit p b i hp]
    simp [Ne.symm hib]

/-- Clearing a freshly set bit restores the original word. -/
theorem clear_set_bit (p b : Nat) (hp : p < 2 ^ 64) (hb : b < 64)
    (hclear : p.testBit b = false) :
    (p ||| 1 <<< b) &&& compl64 (1 <<< b) = p := by
  apply Nat.eq_of_testBit_eq
  intro i
  have hlt : (p ||| 1 <<< b) < 2 ^ 64 := lor_two_pow_lt p b 64 hp hb
  rw [testBit_clear_bit _ b i hlt, testBit_set_bit]
  by_cases hbi : b = i
  · subst hbi; simp [hclear]
  · simp [hbi]

theorem nthSetBitGo_zeroP (f n : Nat) : nthSetBitGo f 0 n = 0 := by
  cases f <;> rfl

theorem nthSetBitGo_zero_odd (f p : Nat) (h0 : p ≠ 0) (hodd : p % 2 = 1) :
    nthSetBitGo (f + 1) p 0 = 0 := by
  rw [show nthSetBitGo (f + 1) p 0
      = (if p = 0 then 0
         else if p % 2 = 1 then (0 : Nat)
         else nthSetBitGo f (p / 2) 0 + 1) from rfl,
    if_neg h0, if_pos hodd]

theorem nthSetBitGo_succ_odd (f p n : Nat) (h0 : p ≠ 0) (hodd : p % 2 = 1) :
    nthSetBitGo (f + 1) p (n + 1) = nthSetBitGo f (p / 2) n + 1 := by
  rw [show nthSetBitGo (f + 1) p (n + 1)
      = (if p = 0 then 0
         else if p % 2 = 1 then nthSetBitGo f (p / 2) n + 1
         else nthSetBitGo f (p / 2) (n + 1) + 1) from rfl,
    if_neg h0, if_pos hodd]

theorem nthSetBitGo_even (f p n : Nat) (h0 : p ≠ 0) (heven : p % 2 = 0) :
    nthSetBitGo (f + 1) p n = nthSetBitGo f (p / 2) n + 1 := by
  rw [show nthSetBitGo (f + 1) p n
      = (if p = 0 then 0
         else if p % 2 = 1 then
           (match n with
            | 0 => 0
            | n' + 1 => nthSetBitGo f (p / 2) n' + 1)
         else nthSetBitGo f (p / 2) n + 1) from rfl,
    if_neg h0, if_neg (by omega : ¬ p % 2 = 1)]

theorem nthSetBitGo_congr (f : Nat) :
    ∀ f' p n, p < 2 ^ f → p < 2 ^ f' → nthSetBitGo f p n = nthSetBitGo f' p n := by
  induction f with
  | zero =>
    intro f' p n h _
    have : p = 0 := by simpa using h
    subst this
    rw [nthSetBitGo_zeroP, nthSetBitGo_zeroP]
  | succ f ih =>
    intro f' p n h h'
    by_cases h0 : p = 0
    · subst h0; rw [nthSetBitGo_zeroP, nthSetBitGo_zeroP]
    · match f' with
      | 0 =>
        have : p = 0 := by simpa using h'
        exact absurd this h0
      | f'' + 1 =>
        have hdiv : p / 2 < 2 ^ f := by
          rw [pow_succ] at h; omega
        have hdiv' : p / 2 < 2 ^ f'' := by
          rw [pow_succ] at h'; omega
        by_cases hodd : p % 2 = 1
        · cases n with
          | zero => rw [nthSetBitGo_zero_odd f p h0 hodd, nthSetBitGo_zero_odd f'' p h0 hodd]
          | succ n' =>
            rw [nthSetBitGo_succ_odd f p n' h0 hodd, nthSetBitGo_succ_odd f'' p n' h0 hodd,
              ih f'' (p / 2) n' hdiv hdiv']
        · have heven : p % 2 = 0 := by omega
          rw [nthSetBitGo_even f p n h0 heven, nthSetBitGo_even f'' p n h0 heven,
            ih f'' (p / 2) n hdiv hdiv']

theorem testBit_nthSetBitGo (f : Nat) :
    ∀ p n, p < 2 ^ f → n < popcountGo f p → p.testBit (nthSetBitGo f p n) = true := by
  induction f with
  | zero =>
    intro p n _ hn
    simp [popcountGo] at hn
  | succ f ih =>
    intro p n hp hn
    by_cases h0 : p = 0
    · subst h0; simp [popcountGo_succ] at hn
    · rw [popcountGo_succ, if_neg h0] at hn
      have hdiv : p / 2 < 2 ^ f := by rw [pow_succ] at hp; omega
      by_cases hodd : p % 2 = 1
      · cases n with
        | zero =>
          rw [nthSetBitGo_zero_odd f p h0 hodd]
          simpa [Nat.testBit_zero] using hodd
        | succ n' =>
          rw [nthSetBitGo_succ_odd f p n' h0 hodd, Nat.testBit_succ]
          exact ih (p / 2) n' hdiv (by omega)
      · have heven : p % 2 = 0 := by omega
        rw [nthSetBitGo_even f p n h0 heven, Nat.testBit_succ]
        exact ih (p / 2) n hdiv (by omega)

/-- The `n`-th set bit is indeed set. -/
theorem testBit_nthSetBit (p n : Nat) (hp : p < 2 ^ 64) (h : n < popcount p) :
    p.testBit (nthSetBit p n) = true :=
  testBit_nthSetBitGo 64 p n hp h

theorem countBelow_succ_div2 (p k : Nat) (hk : k + 1 ≤ 64) :
    countBelow p (k + 1) = countBelow (p / 2) k + p % 2 := by
  rw [countBelow_eq_sum p (k + 1) hk, countBelow_eq_sum (p / 2) k (by omega),
    Finset.sum_range_succ' (fun i => if p.testBit i then 1 else 0) k]
  simp only [Nat.testBit_succ]
  have hbit0 : (if p.testBit 0 then 1 else 0) = p % 2 := by
    rcases Nat.mod_two_eq_zero_or_one p with h | h <;> simp [Nat.testBit_zero, h]
  omega

theorem nthSetBitGo_countBelow (f : Nat) :
    ∀ b p, b + 1 ≤ f → f ≤ 63 → p < 2 ^ f → p.testBit b = true →
      nthSetBitGo f p (countBelow p (b + 1) - 1) = b := by
  induction f with
  | zero => intro b _ hb _ _ _; omega
  | succ f ih =>
    intro b p hb hf hp hbit
    have h0 : p ≠ 0 := by
      intro h; subst h; simp [Nat.zero_testBit] at hbit
    have hdiv : p / 2 < 2 ^ f := by rw [pow_succ] at hp; omega
    match b with
    | 0 =>
      have hodd : p % 2 = 1 := by simpa [Nat.testBit_zero] using hbit
      have hcb : countBelow p 1 = countBelow (p / 2) 0 + 1 := by
        rw [countBelow_succ_div2 p 0 (by omega), hodd]
      have hcb0 : countBelow (p / 2) 0 = 0 := by
        unfold countBelow
        simp [Nat.mod_one, popcount_zero]
      rw [hcb, hcb0]
      exact nthSetBitGo_zero_odd f p h0 hodd
    | b + 1 =>
      have hbit' : (p / 2).testBit b = true := by
        rw [← Nat.testBit_succ]; exact hbit
      have hpos : 1 ≤ countBelow (p / 2) (b + 1) :=
        countBelow_pos_of_testBit (p / 2) b (b + 1) hbit' (by omega) (by omega)
      by_cases hodd : p % 2 = 1
      · have hcb : countBelow p (b + 2) = countBelow (p / 2) (b + 1) + 1 := by
          rw [countBelow_succ_div2 p (b + 1) (by omega), hodd]
        rw [hcb]
        have hn : countBelow (p / 2) (b + 1) + 1 - 1
            = (countBelow (p / 2) (b + 1) - 1) + 1 := by omega
        rw [hn, nthSetBitGo_succ_odd f p _ h0 hodd]
        rw [ih b (p / 2) (by omega) (by omega) hdiv hbit']
      · have heven : p % 2 = 0 := by omega
        have hcb : countBelow p (b + 2) = countBelow (p / 2) (b + 1) := by
          rw [countBelow_succ_div2 p (b + 1) (by omega), heven]; omega
        rw [hcb, nthSetBitGo_even f p _ h0 heven]
        rw [ih b (p / 2) (by omega) (by omega) hdiv hbit']

/-- The index of the `(countBelow p (b+1) - 1)`-th set bit of `p` is `b`
itself when bit `b` is set: erasing recomputes the bit position that the
insert's popcount-prefix arithmetic addressed. -/
theorem nthSetBit_countBelow (b p : Nat) (hb : b < 63) (hp : p < 2 ^ 63)
    (hbit : p.testBit b = true) :
    nthSetBit p (countBelow p (b + 1) - 1) = b := by
  unfold nthSetBit
  rw [nthSetBitGo_congr 64 63 p _ (by omega) hp]
  exact nthSetBitGo_countBelow 63 b p (by omega) (le_refl 63) hp hbit

theorem bindOk {E A B : Type} (a : A) (f : A → Except E B) :
    (Except.ok a).bind f = f a := rfl

theorem seqBindOk {E A B : Type} (a : A) (f : A → Except E B) :
    bind (Except.ok a) f = f a := rfl

theorem pop0_node (p0 p1 : Nat) (pfx : List Nat) (nulls : NullSlot) (ch : List Entry) :
    (IndexNode.node p0 p1 pfx nulls ch).pop0 = p0 := rfl

theorem pop1_node (p0 p1 : Nat) (pfx : List Nat) (nulls : NullSlot) (ch : List Entry) :
    (IndexNode.node p0 p1 pfx nulls ch).pop1 = p1 := rfl

theorem pfx_node (p0 p1 : Nat) (pfx : List Nat) (nulls : NullSlot) (ch : List Entry) :
    (IndexNode.node p0 p1 pfx nulls ch).pfx = pfx := rfl

theorem nulls_node (p0 p1 : Nat) (pfx : List Nat) (nulls : NullSlot) (ch : List Entry) :
    (IndexNode.node p0 p1 pfx nulls ch).nulls = nulls := rfl

theorem children_node (p0 p1 : Nat) (pfx : List Nat) (nulls : NullSlot) (ch : List Entry) :
    (IndexNode.node p0 p1 pfx nulls ch).children = ch := rfl

theorem node_eta (nd : IndexNode) :
    IndexNode.node nd.pop0 nd.pop1 nd.pfx nd.nulls nd.children = nd := by
  cases nd
  rfl

theorem entriesWf_iff (ch : List Entry) :
    entriesWf ch = true ↔ ∀ e ∈ ch, entryWf e = true := by
  induction ch with
  | nil => simp [entriesWf]
  | cons e rest ih =>
    simp [entriesWf, Bool.and_eq_true, ih]

theorem nodeWf_iff (p0 p1 : Nat) (pfx : List Nat) (nulls : NullSlot) (ch : List Entry) :
    nodeWf (.node p0 p1 pfx nulls ch) = true ↔
      p0 < 2 ^ 63 ∧ p1 < 2 ^ 63 ∧ (∀ c ∈ pfx, c < 64)
        ∧ ch.length = popcount p0 + popcount p1 ∧ entriesWf ch = true := by
  simp [nodeWf, Bool.and_eq_true, List.all_eq_true, and_assoc]

theorem invEntries_iff (ch : List Entry) :
    invEntries ch = true ↔ ∀ e ∈ ch, invEntry e = true := by
  induction ch with
  | nil => simp [invEntries]
  | cons e rest ih =>
    simp [invEntries, Bool.and_eq_true, ih]

theorem popcountGo_eq_zero (f : Nat) :
    ∀ p, p < 2 ^ f → (popcountGo f p = 0 ↔ p = 0) := by
  induction f with
  | zero =>
    intro p hp
    interval_cases p
    simp [popcountGo]
  | succ f ih =>
    intro p hp
    by_cases h0 : p = 0
    · subst h0; simp [popcountGo]
    · rw [popcountGo_succ, if_neg h0]
      have hdiv : p / 2 < 2 ^ f := by rw [pow_succ] at hp; omega
      have := ih (p / 2) hdiv
      constructor
      · intro h
        have h1 : popcountGo f (p / 2) = 0 := by omega
        have h2 : p % 2 = 0 := by omega
        have := this.mp h1
        omega
      · intro h; exact absurd h h0

theorem popcount_eq_zero (p : Nat) (hp : p < 2 ^ 64) :
    popcount p = 0 ↔ p = 0 :=
  popcountGo_eq_zero 64 p hp

/-- A well-formed node satisfies the claimed per-node invariant, and its
two `is_empty` readings agree. -/
theorem invNode_of_nodeWf_parts (p0 p1 : Nat) (pfx : List Nat) (nulls : NullSlot)
    (ch : List Entry)
    (h0 : p0 < 2 ^ 63) (h1 : p1 < 2 ^ 63) (hlen : ch.length = popcount p0 + popcount p1)
    (hrest : invEntries ch = true) :
    invNode (.node p0 p1 pfx nulls ch) = true := by
  unfold invNode
  rw [Bool.and_eq_true, Bool.and_eq_true]
  refine ⟨⟨?_, ?_⟩, hrest⟩
  · unfold IndexNode.isEmptySize IndexNode.isEmptyPop
    rw [children_node, nulls_node, pop0_node, pop1_node]
    have e0 : popcount p0 = 0 ↔ p0 = 0 :=
      popcount_eq_zero p0 (lt_of_lt_of_le h0 (by norm_num))
    have e1 : popcount p1 = 0 ↔ p1 = 0 :=
      popcount_eq_zero p1 (lt_of_lt_of_le h1 (by norm_num))
    rw [beq_iff_eq, Bool.eq_iff_iff]
    simp only [Bool.and_eq_true, beq_iff_eq]
    constructor
    · rintro ⟨hz, hv⟩
      exact ⟨⟨e0.mp (by omega), e1.mp (by omega)⟩, hv⟩
    · rintro ⟨⟨hz0, hz1⟩, hv⟩
      have := e0.mpr hz0
      have := e1.mpr hz1
      exact ⟨by omega, hv⟩
  · unfold IndexNode.arraySize
    rw [children_node]
    rw [beq_iff_eq]
    omega

/-! ## S1 scenario: step lemmas

Each insertion and erasure of the S1 scenario, evaluated on the literal
intermediate states. -/

theorem s1_ins1 : insertInt emptyNode 0 (some 0) = .ok s1A1 := by rfl

theorem s1_ins2 : insertInt s1A1 1 (some 1) = .ok s1A2 := by rfl

theorem s1_ins3 : insertInt s1A2 2 (some 2) = .ok s1A3 := by rfl

theorem s1_ins4 : insertInt s1A3 3 (some 3) = .ok s1A4 := by rfl

theorem s1_ins5 : insertInt s1A4 4 (some 4) = .ok s1A5 := by rfl

theorem s1_ins6 : insertInt s1A5 5 (some 4) = .ok s1A6 := by rfl

theorem s1_ins7 : insertInt s1A6 6 (some 5) = .ok s1A7 := by rfl

theorem s1_ins8 : insertInt s1A7 7 (some 5) = .ok s1A8 := by rfl

theorem s1_ins9 : insertInt s1A8 8 (some 5) = .ok s1A9 := by rfl

theorem s1_ins10 : insertInt s1A9 9 none = .ok s1A10 := by rfl

theorem s1_ins11 : insertInt s1A10 10 (some (-1)) = .ok s1A11 := by rfl

theorem s1_del1 : eraseInt s1A11 0 (some 0) = .ok s1B1 := by rfl

theorem s1_del2 : eraseInt s1B1 1 (some 1) = .ok s1B2 := by rfl

theorem s1_del3 : eraseInt s1B2 2 (some 2) = .ok s1B3 := by rfl

theorem s1_del4 : eraseInt s1B3 3 (some 3) = .ok s1B4 := by rfl

theorem s1_del5 : eraseInt s1B4 4 (some 4) = .ok s1B5 := by rfl

theorem s1_del6 : eraseInt s1B5 5 (some 4) = .ok s1B6 := by rfl

theorem s1_del7 : eraseInt s1B6 6 (some 5) = .ok s1B7 := by rfl

theorem s1_del8 : eraseInt s1B7 7 (some 5) = .ok s1B8 := by rfl

theorem s1_del9 : eraseInt s1B8 8 (some 5) = .ok s1B9 := by rfl

theorem s1_del10 : eraseInt s1B9 9 none = .ok s1B10 := by rfl

theorem s1_del11 : eraseInt s1B10 10 (some (-1)) = .ok s1B11 := by rfl

theorem s1_build : buildIndexInt emptyNode s1Rows = .ok s1A11 := by
  simp only [s1Rows, buildIndexInt, s1_ins1, s1_ins2, s1_ins3, s1_ins4, s1_ins5,
    s1_ins6, s1_ins7, s1_ins8, s1_ins9, s1_ins10, s1_ins11, bindOk]

theorem s1_teardown : eraseAllInt s1A11 s1Rows = .ok s1B11 := by
  simp only [s1Rows, eraseAllInt, s1_del1, s1_del2, s1_del3, s1_del4, s1_del5,
    s1_del6, s1_del7, s1_del8, s1_del9, s1_del10, s1_del11, bindOk]

/-- C7: inserting rows 0..10 with values `[0, 1, 2, 3, 4, 4, 5, 5, 5, null,
-1]` into an empty integer index yields a state where `count(4) == 2`,
`count(5) == 3`, `count(null) == 1`, `find_first(-1)` returns the key of
row 10, and `has_duplicate_values()` is true; erasing every row then leaves
an index whose `is_empty()` is true. -/
theorem s1_scenario :
    buildIndexInt emptyNode s1Rows = .ok s1A11
    ∧ countInt s1A11 (some 4) = .ok 2
    ∧ countInt s1A11 (some 5) = .ok 3
    ∧ countInt s1A11 none = .ok 1
    ∧ findFirstInt s1A11 (some (-1)) = .ok (some 10)
    ∧ hasDupNode s1A11 = true
    ∧ eraseAllInt s1A11 s1Rows = .ok s1B11
    ∧ s1B11.isEmptySize = true := by
  refine ⟨s1_build, by rfl, by rfl, by rfl, by rfl, by rfl, s1_teardown, by rfl⟩

/-- C4: inserting a tombstone ObjKey (high bit set) at a terminal chunk
whose population bit is clear does not insert a fresh one-element list
slot; the code (`Array::set` at radix_tree.cpp:170) overwrites the existing
child slot and then fails its own `verify()` size check.  After
`insert(ObjKey 5, 1)` into an empty index, `insert(ObjKey 2^63, 0)` reaches
a clear population bit next to the existing entry and aborts. -/
theorem tombstone_insert_fails_verify :
    insertInt emptyNode 5 (some 1) = .ok tbFirst
    ∧ insertInt tbFirst (2 ^ 63) (some 0) = .error TreeErr.verifyFailed := by
  exact ⟨by rfl, by rfl⟩

/-- C2 counterexample: `insert(ObjKey 1, value 0)` into the empty index
followed by `erase(ObjKey 1, value 0)` does not restore the empty index
bit-for-bit: the prefix slots keep the ten absorbed chunks of the erased
value. -/
theorem roundtrip_not_bit_identical :
    insertInt emptyNode 1 (some 0) = .ok rtIns
    ∧ eraseInt rtIns 1 (some 0) = .ok rtGone
    ∧ rtGone ≠ emptyNode := by
  refine ⟨by rfl, by rfl, ?_⟩
  intro h
  simp only [rtGone, emptyNode, IndexNode.node.injEq] at h
  exact absurd h.2.2.1 (by simp)

/-- C5 counterexample: inserting `(ObjKey 0, value 0)` a second time, when
the terminal slot already holds the tagged ObjKey 0, is not a no-op: the
code asserts that the existing key differs from the new one
(radix_tree.cpp:86) and the operation aborts instead of returning. -/
theorem duplicate_tagged_insert_is_not_noop :
    walkToTagged 0 s1A1 (intChunks (encodeInt 0)) = true
    ∧ insertInt s1A1 0 (some 0) = .error TreeErr.assertViolation := by
  exact ⟨by rfl, by rfl⟩

/-- C8 counterexample: `Results::filter` does not append a descriptor to
the ordering: on a table-mode Results with an empty ordering it returns a
query-mode Results whose ordering is still empty (the query is ANDed
instead), so the ordering is not the receiver's ordering with a filter
descriptor appended. -/
theorem filter_does_not_append_descriptor :
    rFilter ⟨RMode.table, [], ⟨[]⟩, true, some 1, [1, 2, 3], [], []⟩ 7
      = .ok ⟨RMode.query, [], ⟨[7]⟩, true, some 1, [1, 2, 3], [], []⟩
    ∧ ([] : List Descriptor) ≠ [] ++ [Descriptor.filterD 7]
    ∧ rFilter ⟨RMode.table, [Descriptor.limitD 1], ⟨[]⟩, true, some 1, [1, 2, 3], [], []⟩ 7
      = .error ResultsErr.illegalOperation := by
  refine ⟨by rfl, by simp, by rfl⟩

/-- C8 (amended): `sort`, `distinct` and `limit` return a new Results whose
descriptor ordering is the receiver's with the given descriptor appended,
leaving the receiver's query untouched; `filter` appends no descriptor: on
a Results whose ordering applies no limit it returns a new Results with the
ordering copied unchanged and the query ANDed with the argument, and on a
limited Results it fails with `IllegalOperation`.  The receiver itself is
never changed. -/
theorem descriptor_append_amended (r : ResultsM) (s : List (String × Bool))
    (keys : List String) (n q : Nat) :
    (rSort r s).ordering = r.ordering ++ [Descriptor.sortD s]
    ∧ (rDistinct r keys).ordering = r.ordering ++ [Descriptor.distinctD keys]
    ∧ (rLimit r n).ordering = r.ordering ++ [Descriptor.limitD n]
    ∧ (rSort r s).query = r.query
    ∧ (rDistinct r keys).query = r.query
    ∧ (rLimit r n).query = r.query
    ∧ (willApplyLimit r.ordering = false →
        rFilter r q = .ok { r with mode := RMode.query,
                                   query := ⟨r.query.conjuncts ++ [q]⟩ })
    ∧ (willApplyLimit r.ordering = true →
        rFilter r q = .error ResultsErr.illegalOperation) := by
  refine ⟨rfl, rfl, rfl, rfl, rfl, rfl, ?_, ?_⟩
  · intro h
    simp [rFilter, h]
  · intro h
    simp [rFilter, h]

theorem descriptor_append_amended_witness :
    (rSort ⟨RMode.table, [], ⟨[]⟩, true, none, [], [], []⟩ [("a", true)]).ordering
      = [Descriptor.sortD [("a", true)]]
    ∧ rFilter ⟨RMode.table, [], ⟨[]⟩, true, none, [], [], []⟩ 3
      = .ok ⟨RMode.query, [], ⟨[3]⟩, true, none, [], [], []⟩
    ∧ rFilter ⟨RMode.table, [Descriptor.limitD 2], ⟨[]⟩, true, none, [], [], []⟩ 3
      = .error ResultsErr.illegalOperation := by
  obtain ⟨h1, -, -, -, -, -, h7, -⟩ :=
    descriptor_append_amended ⟨RMode.table, [], ⟨[]⟩, true, none, [], [], []⟩
      [("a", true)] [] 0 3
  obtain ⟨-, -, -, -, -, -, -, h8⟩ :=
    descriptor_append_amended ⟨RMode.table, [Descriptor.limitD 2], ⟨[]⟩, true, none, [], [], []⟩
      [("a", true)] [] 0 3
  exact ⟨h1, h7 rfl, h8 rfl⟩

/-- C9: `Results::index_of(Obj)` never reports not-found for a bad
argument: an invalid (deleted or detached) object raises `StaleAccessor`,
and a valid object belonging to a different table than the Results raises
the `ObjectTypeMismatch` error, both before any lookup. -/
theorem index_of_obj_guards (r : ResultsM) (o : ObjM) :
    (o.valid = false → indexOfObj r o = .error ResultsErr.staleAccessor)
    ∧ (∀ t, o.valid = true → r.tableKey = some t → o.tableKey ≠ t →
        indexOfObj r o = .error ResultsErr.objectTypeMismatch) := by
  constructor
  · intro h
    simp [indexOfObj, h]
  · intro t hv ht hne
    simp [indexOfObj, hv, ht, hne]

theorem index_of_obj_guards_witness :
    indexOfObj ⟨RMode.table, [], ⟨[]⟩, true, some 1, [4], [], []⟩ ⟨false, 1, 4⟩
      = .error ResultsErr.staleAccessor
    ∧ indexOfObj ⟨RMode.table, [], ⟨[]⟩, true, some 1, [4], [], []⟩ ⟨true, 2, 4⟩
      = .error ResultsErr.objectTypeMismatch := by
  refine ⟨(index_of_obj_guards _ _).1 rfl, (index_of_obj_guards _ _).2 1 rfl rfl (by decide)⟩

/-! ## Client reset: the precheck guard -/

theorem mbindOk {E A B : Type} (a : A) (f : A → Except E B) :
    (Except.ok a >>= f) = f a := rfl

theorem mbindErr {E A B : Type} (e : E) (f : A → Except E B) :
    ((Except.error e : Except E A) >>= f) = .error e := rfl

theorem hasPendingReset_ok_none (g : LocalGroup)
    (h : hasPendingReset g = .ok none) :
    g.resetTable = none ∨ g.resetTable = some [] := by
  obtain ⟨tb⟩ := g
  rcases tb with _ | (_ | ⟨r, rest⟩)
  · exact Or.inl rfl
  · exact Or.inr rfl
  · exfalso
    rcases rest with _ | ⟨r2, rest2⟩
    · simp only [hasPendingReset, List.length_cons, List.length_nil, List.head?] at h
      norm_num at h
      split_ifs at h <;> simp_all
    · simp only [hasPendingReset, List.length_cons] at h
      norm_num at h
      exact Except.noConfusion h

theorem hasPendingReset_ok_some (g : LocalGroup) (pt : ResyncMode) (t : Nat)
    (h : hasPendingReset g = .ok (some (pt, t))) :
    (∃ r : ResetRow, g.resetTable = some [r])
      ∧ (pt = ResyncMode.discardLocal ∨ pt = ResyncMode.recover) := by
  obtain ⟨tb⟩ := g
  rcases tb with _ | (_ | ⟨r, rest⟩)
  · simp [hasPendingReset] at h
  · simp [hasPendingReset] at h
  · rcases rest with _ | ⟨r2, rest2⟩
    · refine ⟨⟨r, rfl⟩, ?_⟩
      simp only [hasPendingReset, List.length_cons, List.length_nil, List.head?] at h
      norm_num at h
      split_ifs at h <;> simp_all
    · exfalso
      simp only [hasPendingReset, List.length_cons] at h
      norm_num at h
      exact Except.noConfusion h

theorem trackReset_ok (g : LocalGroup) (mode : ResyncMode) (now : Nat)
    (g2 : LocalGroup) (h : trackReset g mode now = .ok g2) :
    mode ≠ ResyncMode.manual ∧
    g2.resetTable = some ((g.resetTable.getD []) ++
      [⟨metadataVersion, now,
        if mode = ResyncMode.recover ∨ mode = ResyncMode.recoverOrDiscard then 1 else 0⟩]) := by
  obtain ⟨tb⟩ := g
  rcases tb with _ | rows <;>
    simp only [trackReset] at h <;>
    split_ifs at h with h1 h2 h3 <;>
    first
      | exact Except.noConfusion h
      | (injection h with hx
         subst hx
         exact ⟨h1, by simp_all [Option.getD]⟩)

/-- The common tail of the guard: the `track_reset` call and the returned
pair, for a group whose metadata table is empty or missing. -/
theorem guard_tail (g0 : LocalGroup) (m2 : ResyncMode) (now : Nat)
    (m : ResyncMode) (g2 : LocalGroup)
    (hrows : g0.resetTable = none ∨ g0.resetTable = some [])
    (h : (trackReset g0 m2 now >>= fun g2x => Except.ok (m2, g2x)) = .ok (m, g2)) :
    m ≠ ResyncMode.manual ∧
    g2.resetTable = some [⟨metadataVersion, now,
      if m = ResyncMode.discardLocal then 0 else 1⟩] := by
  rcases ht : trackReset g0 m2 now with e2 | g2x <;> rw [ht] at h
  · rw [mbindErr] at h
    exact Except.noConfusion h
  · rw [mbindOk] at h
    injection h with hx
    injection hx with hm hg
    subst hm
    subst hg
    obtain ⟨hm, htb⟩ := trackReset_ok _ _ _ _ ht
    refine ⟨hm, ?_⟩
    rcases hrows with hr | hr <;> rw [hr] at htb <;>
      rcases m2 with _ | _ | _ | _ <;> simp_all

/-- C10: whenever `reset_precheck_guard` returns without throwing, the
`client_reset_metadata` table holds exactly one row `(version = 1,
timestamp = now, type)` where `type` encodes the effective mode as 0 for
`DiscardLocal` and 1 otherwise (`RecoverOrDiscard` is recorded like
`Recover`). -/
theorem guard_records_single_row (g : LocalGroup) (mode : ResyncMode)
    (allowed : Bool) (now : Nat) (m : ResyncMode) (g2 : LocalGroup)
    (h : resetPrecheckGuard g mode allowed now = .ok (m, g2)) :
    m ≠ ResyncMode.manual ∧
    g2.resetTable = some [⟨metadataVersion, now,
      if m = ResyncMode.discardLocal then 0 else 1⟩] := by
  unfold resetPrecheckGuard at h
  rcases hp : hasPendingReset g with e | prev
  · rw [hp, mbindErr] at h
    exact Except.noConfusion h
  · rw [hp] at h
    simp only [mbindOk] at h
    rcases prev with _ | ⟨pt, t⟩
    · have hrows := hasPendingReset_ok_none g hp
      rcases allowed with _ | _ <;> rcases mode with _ | _ | _ | _ <;>
        (try simp only [mbindOk, mbindErr, reduceIte] at h) <;>
        first
          | exact Except.noConfusion h
          | exact guard_tail g _ now m g2 hrows h
    · obtain ⟨⟨r, hr⟩, hpt⟩ := hasPendingReset_ok_some g pt t hp
      have hrem : removePendingResets g = ⟨some []⟩ := by
        simp [removePendingResets, hr]
      rcases hpt with hpt | hpt <;> subst hpt
      · simp only [mbindErr] at h
        exact Except.noConfusion h
      · rcases mode with _ | _ | _ | _ <;>
          (try simp only [mbindOk, mbindErr] at h) <;>
          first
            | exact Except.noConfusion h
            | (rw [hrem] at h
               rcases allowed with _ | _ <;>
                 (try simp only [mbindOk, reduceIte] at h) <;>
                 exact guard_tail ⟨some []⟩ ResyncMode.discardLocal now m g2 (Or.inr rfl) h)

theorem guard_records_single_row_witness :
    ResyncMode.recover ≠ ResyncMode.manual ∧
    (⟨some [⟨1, 7, 1⟩]⟩ : LocalGroup).resetTable = some [⟨1, 7, 1⟩] :=
  guard_records_single_row ⟨none⟩ ResyncMode.recover true 7 ResyncMode.recover
    ⟨some [⟨1, 7, 1⟩]⟩ (by rfl)

/-- C3: a recorded DiscardLocal reset marker makes any subsequent client
reset fail with the cycle-prevention `ClientResetFailed`; in particular a
second DiscardLocal reset right after a first one fails that way, the first
having recorded the marker `(timestamp, DiscardLocal)`. -/
theorem discardLocal_cycle_prevented :
    (∀ (g : LocalGroup) (mode : ResyncMode) (allowed : Bool) (now t : Nat),
      hasPendingReset g = .ok (some (ResyncMode.discardLocal, t)) →
      resetPrecheckGuard g mode allowed now
        = .error (.cyclePrevented ResyncMode.discardLocal mode))
    ∧ (∀ (allowed : Bool) (now now2 : Nat),
      resetPrecheckGuard ⟨none⟩ ResyncMode.discardLocal allowed now
        = .ok (ResyncMode.discardLocal, ⟨some [⟨metadataVersion, now, 0⟩]⟩)
      ∧ resetPrecheckGuard ⟨some [⟨metadataVersion, now, 0⟩]⟩
          ResyncMode.discardLocal allowed now2
        = .error (.cyclePrevented ResyncMode.discardLocal ResyncMode.discardLocal)) := by
  constructor
  · intro g mode allowed now t h
    unfold resetPrecheckGuard
    rw [h]
    rfl
  · intro allowed now now2
    cases allowed <;> exact ⟨rfl, rfl⟩

theorem discardLocal_cycle_prevented_witness :
    resetPrecheckGuard ⟨some [⟨1, 5, 0⟩]⟩ ResyncMode.recover true 9
      = .error (.cyclePrevented ResyncMode.discardLocal ResyncMode.recover) :=
  discardLocal_cycle_prevented.1 ⟨some [⟨1, 5, 0⟩]⟩ ResyncMode.recover true 9 5 (by rfl)

/-! ## transfer_group: removed classes -/

theorem mpure {E A : Type} (a : A) : (pure a : Except E A) = .ok a := rfl

theorem mthrow {E A : Type} (e : E) : (throw e : Except E A) = .error e := rfl

theorem mmapOk {E A B : Type} (f : A → B) (a : A) :
    (Except.ok a : Except E A).map f = .ok (f a) := rfl

theorem mmapErr {E A B : Type} (f : A → B) (e : E) :
    (Except.error e : Except E A).map f = .error e := rfl

theorem insertSortedStr_mem_self (s : String) (l : List String) :
    s ∈ insertSortedStr s l := by
  induction l with
  | nil => exact List.mem_singleton.mpr rfl
  | cons x xs ih =>
    simp only [insertSortedStr]
    split_ifs with h1 h2
    · exact List.mem_cons_self s _
    · rw [h2]
      exact List.mem_cons_self x xs
    · exact List.mem_cons_of_mem x ih

theorem insertSortedStr_mem_of_mem (s a : String) (l : List String) (h : a ∈ l) :
    a ∈ insertSortedStr s l := by
  induction l with
  | nil => cases h
  | cons x xs ih =>
    simp only [insertSortedStr]
    split_ifs with h1 h2
    · exact List.mem_cons_of_mem s h
    · exact h
    · rcases List.mem_cons.mp h with h3 | h3
      · rw [h3]
        exact List.mem_cons_self x _
      · exact List.mem_cons_of_mem x (ih h3)

/-- Any public destination table absent from the source lands in the
removal set of the precheck pass. -/
theorem precheckDstTables_mem (src : List TableT) :
    ∀ (dst : List TableT) (names : List String),
      precheckDstTables src dst = .ok names →
      ∀ t ∈ dst, t.isPublic = true → findTable src t.name = none → t.name ∈ names := by
  intro dst
  induction dst with
  | nil =>
    intro names h t ht
    cases ht
  | cons t0 rest ih =>
    intro names h t ht hpub hfind
    rcases List.mem_cons.mp ht with rfl | htr
    · simp only [precheckDstTables] at h
      rw [if_neg (by simp [hpub]), hfind] at h
      rcases hq : precheckDstTables src rest with e | names2 <;> rw [hq] at h
      · rw [mmapErr] at h
        exact Except.noConfusion h
      · rw [mmapOk] at h
        injection h with hx
        subst hx
        exact insertSortedStr_mem_self _ _
    · simp only [precheckDstTables] at h
      by_cases hp0 : t0.isPublic = false
      · rw [if_pos hp0] at h
        exact ih names h t htr hpub hfind
      · rw [if_neg hp0] at h
        rcases hf0 : findTable src t0.name with _ | tSrc <;> simp only [hf0] at h
        · rcases hq : precheckDstTables src rest with e | names2 <;> rw [hq] at h
          · rw [mmapErr] at h
            exact Except.noConfusion h
          · rw [mmapOk] at h
            injection h with hx
            subst hx
            exact insertSortedStr_mem_of_mem _ _ _ (ih names2 hq t htr hpub hfind)
        · rcases h2 : pkColumn tSrc with _ | cSrc <;> rcases h3 : pkColumn t0 with _ | cDst <;>
            rw [h2, h3] at h
          · rw [if_neg (by simp)] at h
            exact ih names h t htr hpub hfind
          · rw [if_pos (by simp)] at h
            exact Except.noConfusion h
          · rw [if_pos (by simp)] at h
            exact Except.noConfusion h
          · rw [if_neg (by simp)] at h
            have h4 : (if cSrc.colType ≠ cDst.colType then
                  (Except.error (.pkTypeMismatch t0.name) : Except XferErr (List String))
                else if attrsSansIndex cSrc ≠ attrsSansIndex cDst then
                  .error (.pkAttrMismatch t0.name)
                else if cSrc.name ≠ cDst.name then .error (.pkNameMismatch t0.name)
                else precheckDstTables src rest) = .ok names := h
            split_ifs at h4 <;>
              first
                | exact Except.noConfusion h4
                | exact ih names h4 t htr hpub hfind

theorem syncRows_names (src dst : List TableT) :
    (syncRows src dst).map TableT.name = dst.map TableT.name := by
  unfold syncRows
  rw [List.map_map]
  apply List.map_congr_left
  intro t ht
  simp only [Function.comp_apply]
  split_ifs with h1
  · rfl
  · rcases hf : findTable src t.name with _ | tSrc <;> rfl

theorem bind_pure_ok {E A B : Type} (x : Except E A) (g : A → B) (b : B)
    (h : (x >>= fun a => pure (g a)) = .ok b) : ∃ a, x = .ok a ∧ b = g a := by
  rcases x with e | a
  · rw [mbindErr] at h
    exact Except.noConfusion h
  · rw [mbindOk] at h
    refine ⟨a, rfl, ?_⟩
    injection h with hx
    exact hx.symm

theorem foldlM_names_preserved {α : Type} (step : List TableT → α → Except XferErr (List TableT))
    (hstep : ∀ acc a out, step acc a = .ok out → out.map TableT.name = acc.map TableT.name)
    (l : List α) : ∀ (acc out : List TableT), l.foldlM step acc = .ok out →
      out.map TableT.name = acc.map TableT.name := by
  induction l with
  | nil =>
    intro acc out h
    have h2 : (Except.ok acc : Except XferErr (List TableT)) = .ok out := h
    injection h2 with hx
    rw [hx]
  | cons a l ih =>
    intro acc out h
    rw [List.foldlM_cons] at h
    rcases hs : step acc a with e | acc2 <;> rw [hs] at h
    · rw [mbindErr] at h
      exact Except.noConfusion h
    · rw [mbindOk] at h
      rw [ih acc2 out h, hstep acc a acc2 hs]

theorem addMissingColumns_names (src dst out : List TableT)
    (h : addMissingColumns src dst = .ok out) :
    out.map TableT.name = dst.map TableT.name := by
  unfold addMissingColumns at h
  refine foldlM_names_preserved _ ?_ src dst out h
  intro acc a d2 hs
  beta_reduce at hs
  by_cases hp : a.isPublic = false
  · rw [if_pos hp] at hs
    have hs2 : (Except.ok acc : Except XferErr (List TableT)) = .ok d2 := hs
    injection hs2 with hx
    rw [← hx]
  · rw [if_neg hp] at hs
    rcases hf : findTable acc a.name with _ | tDst <;> rw [hf] at hs
    · exact Except.noConfusion hs
    · obtain ⟨nc, -, hb⟩ := bind_pure_ok _ _ _ hs
      subst hb
      rw [List.map_map]
      apply List.map_congr_left
      intro t ht
      simp only [Function.comp_apply]
      split_ifs <;> rfl

/-- C6: with `allow_schema_additions` false, a nonempty set of public
destination tables missing from the source makes `transfer_group` fail with
`ClientResetFailed` naming the removed classes, before any change to the
destination; every such table contributes its name.  With
`allow_schema_additions` true those tables are kept: any successful run
returns a group that still contains every destination table's name. -/
theorem transferGroup_removed_classes (src dst : List TableT) (names : List String)
    (hpre : precheckDstTables src dst = .ok names) :
    (names ≠ [] →
      transferGroup src dst false = .error (.removedClasses (names.map classNameOf)))
    ∧ (∀ t ∈ dst, t.isPublic = true → findTable src t.name = none → t.name ∈ names)
    ∧ (∀ out, transferGroup src dst true = .ok out →
        ∀ t ∈ dst, t.name ∈ out.map TableT.name) := by
  refine ⟨?_, fun t => precheckDstTables_mem src dst names hpre t, ?_⟩
  · intro hne
    unfold transferGroup
    rw [hpre, mbindOk]
    rw [if_pos ⟨rfl, hne⟩]
    rfl
  · intro out hok t htm
    unfold transferGroup at hok
    rw [hpre, mbindOk] at hok
    rw [if_neg (by simp)] at hok
    simp only [] at hok
    rcases hc : checkRemovedColumns src (createMissingTables src dst) true
      with e | u <;> rw [hc] at hok
    · rw [mbindErr] at hok
      exact Except.noConfusion hok
    · rw [mbindOk] at hok
      rcases ha : addMissingColumns src (createMissingTables src dst)
        with e | dst2 <;> rw [ha] at hok
      · rw [mbindErr] at hok
        exact Except.noConfusion hok
      · rw [mbindOk] at hok
        have hout : out = syncRows src dst2 := by
          injection hok with hx
          exact hx.symm
        rw [hout, syncRows_names, addMissingColumns_names src _ dst2 ha]
        unfold createMissingTables
        rw [List.map_append]
        exact List.mem_append_left _ (List.mem_map_of_mem TableT.name htm)

theorem transferGroup_removed_classes_witness :
    (["class_Dog"] : List String) ≠ []
    ∧ transferGroup []
        [⟨"class_Dog", true, false, none, [], []⟩] false
      = .error (.removedClasses (["class_Dog"].map classNameOf)) := by
  refine ⟨by simp, ?_⟩
  exact (transferGroup_removed_classes []
    [⟨"class_Dog", true, false, none, [], []⟩] ["class_Dog"] (by rfl)).1 (by simp)

/-! ## Radix tree: characterization of the walk steps -/

/-- `do_insert_to_population` at a chunk whose bit is already set returns
the same physical index as `index_of` and leaves the node unchanged. -/
theorem doInsertToPop_existing (nd : IndexNode) (v i : Nat)
    (h : indexOfChunk nd v = some i) (hv : v < 64) :
    doInsertToPop nd v = .ok (true, i, nd) := by
  unfold indexOfChunk at h
  unfold doInsertToPop
  simp only [] at h ⊢
  by_cases h63 : v < 63
  · rw [if_pos h63] at h
    rw [if_pos (by omega : v ≤ 63 + 63), if_pos h63]
    split_ifs with htb
    · rw [if_pos htb] at h
      exact Option.noConfusion h
    · rw [if_neg htb] at h
      injection h with hx
      rw [hx]
  · rw [if_neg h63] at h
    rw [if_pos (by omega : v ≤ 63 + 63), if_neg h63]
    split_ifs with htb
    · rw [if_pos htb] at h
      exact Option.noConfusion h
    · rw [if_neg htb] at h
      injection h with hx
      rw [hx]

/-- `do_prefix_insert` on a nonempty node whose whole stored path is shared
with the key consumes exactly the path and does not change the node. -/
theorem doPfxInsert_shared (nd : IndexNode) (cs : List Nat)
    (hne : nd.isEmptyPop = false)
    (hsh : sharedLen nd.pfx cs = nd.pfx.length) :
    doPfxInsert nd cs = .ok (nd, nd.pfx.length) := by
  unfold doPfxInsert
  rw [hne]
  simp only [Bool.false_eq_true, if_false]
  by_cases hl : nd.pfx.length = 0
  · rw [if_pos hl, hl]
  · rw [if_neg hl, hsh, if_pos rfl]

theorem isEmpty_false_of_drop_cons (cs : List Nat) (l c : Nat) (rest : List Nat)
    (h : cs.drop l = c :: rest) : cs.isEmpty = false := by
  rcases cs with _ | ⟨x, xs⟩
  · rw [List.drop_nil] at h
    exact List.noConfusion h
  · rfl

/-- C5 (amended): inserting an ObjKey `k` along a fully walkable path whose
terminal slot already holds the tagged ObjKey `k` itself is not a no-op:
the walk reaches `do_add_direct`, whose `REALM_ASSERT(existing != key)`
aborts the operation. -/
theorem insert_existing_tagged_asserts (k : Nat) :
    ∀ (fuel : Nat) (nd : IndexNode) (cs : List Nat),
      walkTaggedGo k fuel nd cs = true →
      insertGo k fuel nd cs = .error TreeErr.assertViolation := by
  intro fuel
  induction fuel with
  | zero =>
    intro nd cs h
    exact absurd h (by simp [walkTaggedGo])
  | succ f ih =>
    intro nd cs h
    unfold walkTaggedGo at h
    rw [Bool.and_eq_true, Bool.and_eq_true] at h
    obtain ⟨⟨hne, hsh⟩, h3⟩ := h
    rw [Bool.not_eq_true'] at hne
    rw [beq_iff_eq] at hsh
    rcases hdrop : cs.drop nd.pfx.length with _ | ⟨c, rest⟩ <;> rw [hdrop] at h3
    · exact absurd h3 (by simp)
    · rw [Bool.and_eq_true, decide_eq_true_eq] at h3
      obtain ⟨hc64, h4⟩ := h3
      rcases hio : indexOfChunk nd c with _ | realIdx <;> simp only [hio] at h4
      · exact absurd h4 (by simp)
      · rcases hget : nd.children.get? (realIdx - metadataSlots) with _ | e <;>
          simp only [hget] at h4
        · exact absurd h4 (by simp)
        · have hcs : cs.isEmpty = false := isEmpty_false_of_drop_cons cs _ c rest hdrop
          unfold insertGo
          rw [hcs]
          simp only [Bool.false_eq_true, if_false,
            doPfxInsert_shared nd cs hne hsh, mbindOk]
          rw [hdrop]
          simp only [doInsertToPop_existing nd c realIdx hio hc64, mbindOk]
          simp only [if_true]
          simp only [childGet, hget, mbindOk]
          rcases e with ek | el | sub
          · rw [Bool.and_eq_true] at h4
            obtain ⟨hre, hek⟩ := h4
            rw [beq_iff_eq] at hek
            rw [hre]
            simp only [Bool.true_eq_false, if_false, reduceIte]
            rw [if_pos hek]
          · exact absurd h4 (by simp)
          · rw [Bool.and_eq_true, Bool.not_eq_true'] at h4
            obtain ⟨hre, hsub⟩ := h4
            simp only [ih sub rest hsub, mbindErr]

theorem insert_existing_tagged_asserts_witness :
    walkTaggedGo 0 (intChunks (encodeInt 0)).length s1A1 (intChunks (encodeInt 0)) = true
    ∧ insertGo 0 (intChunks (encodeInt 0)).length s1A1 (intChunks (encodeInt 0))
      = .error TreeErr.assertViolation := by
  refine ⟨by rfl, ?_⟩
  exact insert_existing_tagged_asserts 0 (intChunks (encodeInt 0)).length s1A1
    (intChunks (encodeInt 0)) (by rfl)

/-! ## Well-formedness machinery for C1 -/

theorem invNode_of_nodeWf_aux : ∀ (n : Nat),
    (∀ nd : IndexNode, ndSize nd ≤ n → nodeWf nd = true → invNode nd = true)
    ∧ (∀ ch : List Entry, entsSize ch ≤ n → entriesWf ch = true → invEntries ch = true) := by
  intro n
  induction n with
  | zero =>
    constructor
    · intro nd hs hw
      exfalso
      rcases nd with ⟨p0, p1, pfx, nulls, ch⟩
      simp [ndSize] at hs
    · intro ch hs hw
      revert hs hw
      induction ch with
      | nil =>
        intro hs hw
        rfl
      | cons e rest ihl =>
        intro hs hw
        simp only [entsSize] at hs
        simp only [entriesWf, Bool.and_eq_true] at hw
        simp only [invEntries, Bool.and_eq_true]
        refine ⟨?_, ihl (by omega) hw.2⟩
        rcases e with ek | el | sub
        · rfl
        · rfl
        · exfalso
          simp only [entSize] at hs
          omega
  | succ n ihn =>
    obtain ⟨ihnd, ihch⟩ := ihn
    constructor
    · intro nd hs hw
      rcases nd with ⟨p0, p1, pfx, nulls, ch⟩
      rw [nodeWf_iff] at hw
      obtain ⟨h0, h1, hpfx, hlen, hents⟩ := hw
      refine invNode_of_nodeWf_parts p0 p1 pfx nulls ch h0 h1 hlen ?_
      apply ihch
      · simp only [ndSize] at hs
        omega
      · exact hents
    · intro ch hs hw
      revert hs hw
      induction ch with
      | nil =>
        intro hs hw
        rfl
      | cons e rest ihl =>
        intro hs hw
        simp only [entsSize] at hs
        simp only [entriesWf, Bool.and_eq_true] at hw
        simp only [invEntries, Bool.and_eq_true]
        refine ⟨?_, ihl (by omega) hw.2⟩
        rcases e with ek | el | sub
        · rfl
        · rfl
        · simp only [invEntry]
          apply ihnd
          · simp only [entSize] at hs
            omega
          · exact hw.1

/-- A recursively well-formed node satisfies the per-node committed-state
invariant everywhere. -/
theorem invNode_of_nodeWf (nd : IndexNode) (hw : nodeWf nd = true) :
    invNode nd = true :=
  (invNode_of_nodeWf_aux (ndSize nd)).1 nd (le_refl _) hw

theorem entriesWf_get (ch : List Entry) :
    ∀ (j : Nat) (e : Entry), entriesWf ch = true → ch.get? j = some e →
      entryWf e = true := by
  induction ch with
  | nil =>
    intro j e hw hg
    exact Option.noConfusion hg
  | cons x xs ih =>
    intro j e hw hg
    simp only [entriesWf, Bool.and_eq_true] at hw
    rcases j with _ | j
    · injection hg with hx
      rw [← hx]
      exact hw.1
    · exact ih j e hw.2 hg

theorem entriesWf_set (ch : List Entry) :
    ∀ (j : Nat) (e : Entry), entriesWf ch = true → entryWf e = true →
      entriesWf (ch.set j e) = true := by
  induction ch with
  | nil =>
    intro j e hw he
    exact hw
  | cons x xs ih =>
    intro j e hw he
    simp only [entriesWf, Bool.and_eq_true] at hw
    rcases j with _ | j
    · simp only [List.set, entriesWf, Bool.and_eq_true]
      exact ⟨he, hw.2⟩
    · simp only [List.set, entriesWf, Bool.and_eq_true]
      exact ⟨hw.1, ih j e hw.2 he⟩

theorem entriesWf_insertIdx (ch : List Entry) :
    ∀ (j : Nat) (e : Entry), entriesWf ch = true → entryWf e = true →
      entriesWf (ch.insertIdx j e) = true := by
  induction ch with
  | nil =>
    intro j e hw he
    rcases j with _ | j
    · rw [List.insertIdx_zero]
      simp only [entriesWf, Bool.and_eq_true]
      exact ⟨he, trivial⟩
    · exact hw
  | cons x xs ih =>
    intro j e hw he
    simp only [entriesWf, Bool.and_eq_true] at hw
    rcases j with _ | j
    · rw [List.insertIdx_zero]
      simp only [entriesWf, Bool.and_eq_true]
      exact ⟨he, hw.1, hw.2⟩
    · rw [List.insertIdx_succ_cons]
      simp only [entriesWf, Bool.and_eq_true]
      exact ⟨hw.1, ih j e hw.2 he⟩

theorem entriesWf_eraseIdx (ch : List Entry) :
    ∀ (j : Nat), entriesWf ch = true → entriesWf (ch.eraseIdx j) = true := by
  induction ch with
  | nil =>
    intro j hw
    exact hw
  | cons x xs ih =>
    intro j hw
    simp only [entriesWf, Bool.and_eq_true] at hw
    rcases j with _ | j
    · exact hw.2
    · show entriesWf (x :: xs.eraseIdx j) = true
      simp only [entriesWf, Bool.and_eq_true]
      exact ⟨hw.1, ih j hw.2⟩

theorem verifyChk_ok (nd : IndexNode) (u : Unit) (h : nd.verifyChk = .ok u) :
    metadataSlots + popcount nd.pop0 + popcount nd.pop1 = nd.arraySize := by
  unfold IndexNode.verifyChk at h
  split_ifs at h with hc
  exact hc

theorem chunkAt_lt (v i : Nat) (hi : i < 11) : chunkAt v i < 64 := by
  have h1 : chunkAt v i ≤ (intMask >>> (i * 6))
      >>> (if (1 + i) * 6 < 64 then 64 - (1 + i) * 6 else 0) := by
    simp only [chunkAt, Nat.shiftRight_eq_div_pow]
    exact Nat.div_le_div_right Nat.and_le_right
  refine lt_of_le_of_lt h1 ?_
  interval_cases i <;> decide

theorem intChunks_all_lt (v : Nat) :
    (intChunks v).all (fun c => decide (c < 64)) = true := by
  rw [List.all_eq_true]
  intro c hc
  rw [decide_eq_true_eq]
  obtain ⟨i, hi, rfl⟩ := List.mem_map.mp hc
  exact chunkAt_lt v i (List.mem_range.mp hi)

theorem sharedLen_le (ex cs : List Nat) : sharedLen ex cs ≤ ex.length := by
  induction ex generalizing cs with
  | nil => simp [sharedLen]
  | cons e ex ih =>
    rcases cs with _ | ⟨c, cs2⟩
    · simp [sharedLen]
    · rcases cs2 with _ | ⟨c2, cs3⟩
      · simp [sharedLen]
      · simp only [sharedLen]
        split_ifs
        · have := ih (c2 :: cs3)
          simp only [List.length_cons]
          omega
        · simp

theorem nodeWf_mk (p0 p1 : Nat) (pfx : List Nat) (nulls : NullSlot) (ch : List Entry)
    (h0 : p0 < 2 ^ 63) (h1 : p1 < 2 ^ 63) (hp : ∀ c ∈ pfx, c < 64)
    (hlen : ch.length = popcount p0 + popcount p1) (he : entriesWf ch = true) :
    nodeWf (.node p0 p1 pfx nulls ch) = true :=
  (nodeWf_iff p0 p1 pfx nulls ch).mpr ⟨h0, h1, hp, hlen, he⟩

theorem childSetAt_ok (nd : IndexNode) (j : Nat) (e : Entry) (nd3 : IndexNode)
    (h : childSetAt nd j e = .ok nd3) :
    j < nd.children.length
    ∧ nd3 = .node nd.pop0 nd.pop1 nd.pfx nd.nulls (nd.children.set j e) := by
  unfold childSetAt at h
  split_ifs at h with hj
  refine ⟨hj, ?_⟩
  injection h with hx
  exact hx.symm

theorem childInsertAt_ok (nd : IndexNode) (j : Nat) (e : Entry) (nd3 : IndexNode)
    (h : childInsertAt nd j e = .ok nd3) :
    j ≤ nd.children.length
    ∧ nd3 = .node nd.pop0 nd.pop1 nd.pfx nd.nulls (nd.children.insertIdx j e) := by
  unfold childInsertAt at h
  split_ifs at h with hj
  refine ⟨hj, ?_⟩
  injection h with hx
  exact hx.symm

theorem doInsertToPop_parts (nd : IndexNode) (c : Nat) (r : Bool × Nat × IndexNode)
    (h0 : nd.pop0 < 2 ^ 63) (h1 : nd.pop1 < 2 ^ 63) (hc : c < 64)
    (h : doInsertToPop nd c = .ok r) :
    r.2.2.pop0 < 2 ^ 63 ∧ r.2.2.pop1 < 2 ^ 63
    ∧ r.2.2.pfx = nd.pfx ∧ r.2.2.nulls = nd.nulls ∧ r.2.2.children = nd.children := by
  unfold doInsertToPop at h
  rw [if_pos (by omega : c ≤ 63 + 63)] at h
  simp only [] at h
  by_cases h63 : c < 63
  · rw [if_pos h63] at h
    split_ifs at h with htb
    · injection h with hx
      subst hx
      exact ⟨lor_two_pow_lt _ c 63 h0 h63, h1, rfl, rfl, rfl⟩
    · injection h with hx
      subst hx
      exact ⟨h0, h1, rfl, rfl, rfl⟩
  · rw [if_neg h63] at h
    split_ifs at h with htb
    · injection h with hx
      subst hx
      exact ⟨h0, lor_two_pow_lt _ (c - 63) 63 h1 (by omega), rfl, rfl, rfl⟩
    · injection h with hx
      subst hx
      exact ⟨h0, h1, rfl, rfl, rfl⟩

/-- `do_insert_to_population` on a node with both populations zero: the
fresh bit is set and the total population count becomes one. -/
theorem doInsertToPop_empty (pfx : List Nat) (nulls : NullSlot) (ch : List Entry)
    (c : Nat) (hc : c < 64) :
    ∃ i nd2, doInsertToPop (.node 0 0 pfx nulls ch) c = .ok (false, i, nd2)
      ∧ nd2.pfx = pfx ∧ nd2.nulls = nulls ∧ nd2.children = ch
      ∧ popcount nd2.pop0 + popcount nd2.pop1 = 1
      ∧ nd2.pop0 < 2 ^ 63 ∧ nd2.pop1 < 2 ^ 63 := by
  have hone : ∀ b : Nat, b < 63 → popcount (1 <<< b) = 1 := by
    intro b hb
    have := popcount_set_bit 0 b 63 (by norm_num) hb (by norm_num) (Nat.zero_testBit b)
    rwa [Nat.zero_or, popcount_zero] at this
  have hlt : ∀ b : Nat, b < 63 → (1 : Nat) <<< b < 2 ^ 63 := by
    intro b hb
    rw [Nat.one_shiftLeft]
    exact Nat.pow_lt_pow_right (by norm_num) hb
  unfold doInsertToPop
  rw [if_pos (by omega : c ≤ 63 + 63)]
  simp only [pop0_node, pop1_node, pfx_node, nulls_node, children_node]
  by_cases h63 : c < 63
  · rw [if_pos h63, if_pos (Nat.zero_testBit c)]
    refine ⟨_, _, rfl, rfl, rfl, rfl, ?_, ?_, ?_⟩
    · simp only [pop0_node, pop1_node, Nat.zero_or]
      rw [hone c h63]
      rfl
    · simp only [pop0_node, Nat.zero_or]
      exact hlt c h63
    · simp only [pop1_node]
      norm_num
  · rw [if_neg h63, if_pos (Nat.zero_testBit (c - 63))]
    refine ⟨_, _, rfl, rfl, rfl, rfl, ?_, ?_, ?_⟩
    · simp only [pop0_node, pop1_node, Nat.zero_or]
      rw [hone (c - 63) (by omega)]
      rfl
    · simp only [pop0_node]
      norm_num
    · simp only [pop1_node, Nat.zero_or]
      exact hlt (c - 63) (by omega)

/-- `do_prefix_insert` preserves recursive well-formedness. -/
theorem doPfxInsert_wf (nd : IndexNode) (cs : List Nat) (r : IndexNode × Nat)
    (hw : nodeWf nd = true) (hcs : ∀ c ∈ cs, c < 64)
    (h : doPfxInsert nd cs = .ok r) : nodeWf r.1 = true := by
  rcases nd with ⟨p0, p1, pfx, nulls, ch⟩
  rw [nodeWf_iff] at hw
  obtain ⟨h0, h1, hpfx, hlen, hents⟩ := hw
  unfold doPfxInsert at h
  simp only [pop0_node, pop1_node, pfx_node, nulls_node, children_node] at h
  split_ifs at h with hemp hl hs
  · injection h with hx
    subst hx
    exact nodeWf_mk _ _ _ _ _ h0 h1
      (fun c hcm => hcs c (List.take_subset _ _ hcm)) hlen hents
  · injection h with hx
    subst hx
    exact nodeWf_mk _ _ _ _ _ h0 h1 hpfx hlen hents
  · injection h with hx
    subst hx
    exact nodeWf_mk _ _ _ _ _ h0 h1 hpfx hlen hents
  · -- split: the node is rebuilt around the single diverging path chunk
    have hslt : sharedLen pfx cs < pfx.length :=
      lt_of_le_of_ne (sharedLen_le pfx cs) hs
    have hpsplit : pfx.getD (sharedLen pfx cs) 0 < 64 := by
      rw [List.getD_eq_getElem pfx 0 hslt]
      exact hpfx _ (List.getElem_mem hslt)
    obtain ⟨i, nd2, hdi, hp2, hn2, hc2, hcount, hb0, hb1⟩ :=
      doInsertToPop_empty (cs.take (sharedLen pfx cs)) nulls [] _ hpsplit
    rw [hdi, mbindOk] at h
    injection h with hx
    subst hx
    simp only []
    rcases nd2 with ⟨q0, q1, qfx, qnulls, qch⟩
    simp only [pop0_node, pop1_node, pfx_node, nulls_node, children_node] at hp2 hn2 hc2 hcount hb0 hb1 ⊢
    apply nodeWf_mk _ _ _ _ _ hb0 hb1
    · rw [hp2]
      exact fun c hcm => hcs c (List.take_subset _ _ hcm)
    · simp only [List.length_cons, List.length_nil]
      omega
    · simp only [entriesWf, entryWf, Bool.and_eq_true]
      refine ⟨?_, trivial⟩
      exact nodeWf_mk _ _ _ _ _ h0 h1
        (fun c hcm => hpfx c (List.drop_subset _ _ hcm)) hlen hents

/-- `do_remove` preserves recursive well-formedness. -/
theorem doRemove_wf (nd : IndexNode) (i : Nat) (r : IndexNode × Bool)
    (hw : nodeWf nd = true) (h : doRemove nd i = .ok r) : nodeWf r.1 = true := by
  rcases nd with ⟨p0, p1, pfx, nulls, ch⟩
  rw [nodeWf_iff] at hw
  obtain ⟨h0, h1, hpfx, hlen, hents⟩ := hw
  unfold doRemove at h
  simp only [pop0_node, pop1_node, pfx_node, nulls_node, children_node] at h
  by_cases hi4 : i = 4
  · rw [if_pos hi4] at h
    injection h with hx
    subst hx
    exact nodeWf_mk _ _ _ _ _ h0 h1 hpfx hlen hents
  · rw [if_neg hi4] at h
    by_cases hi5 : i < metadataSlots
    · rw [if_pos hi5] at h
      exact Except.noConfusion h
    · rw [if_neg hi5] at h
      by_cases hil : i - metadataSlots < ch.length
      · rw [if_pos hil] at h
        by_cases hz : p0 = 0 ∧ p1 = 0
        · rw [if_pos hz] at h
          exact Except.noConfusion h
        · rw [if_neg hz] at h
          try simp only [] at h
          have hlen2 : (ch.eraseIdx (i - metadataSlots)).length
              = ch.length - 1 := by
            rw [List.length_eraseIdx]
            rw [if_pos hil]
          by_cases hbits : popcount p0 > i - metadataSlots
          · rw [if_pos hbits] at h
            split_ifs at h with htb
            rw [Bool.not_eq_false] at htb
            injection h with hx
            subst hx
            have hidx : nthSetBit p0 (i - metadataSlots) < 64 := by
              by_contra hge
              rw [Nat.testBit_lt_two_pow
                (lt_of_lt_of_le h0 (Nat.pow_le_pow_right (by norm_num) (by omega)))] at htb
              exact Bool.noConfusion htb
            have hdec := popcount_clear_bit p0 _ (by
              calc p0 < 2 ^ 63 := h0
                _ ≤ 2 ^ 64 := by norm_num) hidx htb
            have hpos : 1 ≤ popcount p0 := by
              have := countBelow_pos_of_testBit p0 _ 64 htb hidx (le_refl 64)
              unfold countBelow at this
              rwa [Nat.mod_eq_of_lt (by
                calc p0 < 2 ^ 63 := h0
                  _ ≤ 2 ^ 64 := by norm_num)] at this
            apply nodeWf_mk _ _ _ _ _
              (lt_of_le_of_lt Nat.and_le_left h0) h1 hpfx ?_
              (entriesWf_eraseIdx ch _ hents)
            rw [hlen2, hdec]
            omega
          · rw [if_neg hbits] at h
            split_ifs at h with htb
            rw [Bool.not_eq_false] at htb
            injection h with hx
            subst hx
            have hidx : nthSetBit p1 (i - metadataSlots - popcount p0) < 64 := by
              by_contra hge
              rw [Nat.testBit_lt_two_pow
                (lt_of_lt_of_le h1 (Nat.pow_le_pow_right (by norm_num) (by omega)))] at htb
              exact Bool.noConfusion htb
            have hdec := popcount_clear_bit p1 _ (by
              calc p1 < 2 ^ 63 := h1
                _ ≤ 2 ^ 64 := by norm_num) hidx htb
            have hpos : 1 ≤ popcount p1 := by
              have := countBelow_pos_of_testBit p1 _ 64 htb hidx (le_refl 64)
              unfold countBelow at this
              rwa [Nat.mod_eq_of_lt (by
                calc p1 < 2 ^ 63 := h1
                  _ ≤ 2 ^ 64 := by norm_num)] at this
            apply nodeWf_mk _ _ _ _ _ h0
              (lt_of_le_of_lt Nat.and_le_left h1) hpfx ?_
              (entriesWf_eraseIdx ch _ hents)
            rw [hlen2, hdec]
            omega
      · rw [if_neg hil] at h
        exact Except.noConfusion h

/-- `do_add_direct` at the nulls slot preserves well-formedness: only the
nulls slot changes. -/
theorem insertNull_wf (k : Nat) (nd nd2 : IndexNode)
    (hw : nodeWf nd = true) (h : insertNull k nd = .ok nd2) : nodeWf nd2 = true := by
  rcases nd with ⟨p0, p1, pfx, nulls, ch⟩
  rw [nodeWf_iff] at hw
  obtain ⟨h0, h1, hpfx, hlen, hents⟩ := hw
  rcases nulls with _ | k0 | l <;>
    (unfold insertNull at h
     simp only [pop0_node, pop1_node, pfx_node, nulls_node, children_node] at h)
  · split_ifs at h with hk63
    · rcases hv : (IndexNode.node p0 p1 pfx (NullSlot.taggedKey k) ch).verifyChk
        with e | u <;> simp only [hv, mbindOk, mbindErr, mpure] at h
      · exact Except.noConfusion h
      · injection h with hx
        subst hx
        exact nodeWf_mk _ _ _ _ _ h0 h1 hpfx hlen hents
    · rcases hv : (IndexNode.node p0 p1 pfx (NullSlot.keyList [k]) ch).verifyChk
        with e | u <;> simp only [hv, mbindOk, mbindErr, mpure] at h
      · exact Except.noConfusion h
      · injection h with hx
        subst hx
        exact nodeWf_mk _ _ _ _ _ h0 h1 hpfx hlen hents
  · split_ifs at h with hke hlt
    · rcases hv : (IndexNode.node p0 p1 pfx
          (NullSlot.keyList [k0, k]) ch).verifyChk
        with e | u <;> simp only [hv, mbindOk, mbindErr, mpure, Except.ok.injEq] at h
      · exact Except.noConfusion h
      · subst h
        exact nodeWf_mk _ _ _ _ _ h0 h1 hpfx hlen hents
    · rcases hv : (IndexNode.node p0 p1 pfx
          (NullSlot.keyList [k, k0]) ch).verifyChk
        with e | u <;> simp only [hv, mbindOk, mbindErr, mpure, Except.ok.injEq] at h
      · exact Except.noConfusion h
      · subst h
        exact nodeWf_mk _ _ _ _ _ h0 h1 hpfx hlen hents
  · rcases hfind : listFindEq l k with _ | j <;> simp only [hfind] at h
    · rcases hv : (IndexNode.node p0 p1 pfx
          (NullSlot.keyList (listInsertSorted l k)) ch).verifyChk
        with e | u <;> simp only [hv, mbindOk, mbindErr, mpure] at h
      · exact Except.noConfusion h
      · injection h with hx
        subst hx
        exact nodeWf_mk _ _ _ _ _ h0 h1 hpfx hlen hents
    · exact Except.noConfusion h

theorem nodeWf_dest (nd : IndexNode) (h : nodeWf nd = true) :
    nd.pop0 < 2 ^ 63 ∧ nd.pop1 < 2 ^ 63 ∧ (∀ c ∈ nd.pfx, c < 64)
    ∧ nd.children.length = popcount nd.pop0 + popcount nd.pop1
    ∧ entriesWf nd.children = true := by
  rcases nd with ⟨p0, p1, pfx, nulls, ch⟩
  rw [nodeWf_iff] at h
  simpa using h

theorem emptyNode_wf : nodeWf emptyNode = true := by rfl

/-- `Array::set` on a child slot followed by a successful `verify()` yields
a well-formed node, provided the populations, path and remaining entries
of the input are in shape. -/
theorem setChild_verify_wf (nd2 : IndexNode) (j : Nat) (e : Entry) (nd' : IndexNode)
    (hb0 : nd2.pop0 < 2 ^ 63) (hb1 : nd2.pop1 < 2 ^ 63) (hpfx : ∀ c ∈ nd2.pfx, c < 64)
    (hents : entriesWf nd2.children = true) (hewf : entryWf e = true)
    (h : (do
        let nd3 ← childSetAt nd2 j e
        let _ ← nd3.verifyChk
        return nd3) = .ok nd') :
    nodeWf nd' = true := by
  rcases hset : childSetAt nd2 j e with e2 | nd3 <;>
    simp only [hset, mbindOk, mbindErr] at h
  · exact Except.noConfusion h
  · rcases hv : nd3.verifyChk with e3 | u <;>
      simp only [hv, mbindOk, mbindErr, mpure, Except.ok.injEq] at h
    · exact Except.noConfusion h
    · subst h
      obtain ⟨hj, hdef⟩ := childSetAt_ok nd2 j e nd3 hset
      subst hdef
      have hvv := verifyChk_ok _ u hv
      simp only [IndexNode.arraySize, pop0_node, pop1_node, children_node] at hvv
      apply nodeWf_mk _ _ _ _ _ hb0 hb1 hpfx ?_ (entriesWf_set _ _ _ hents hewf)
      omega

/-- `Array::insert` of a child slot followed by a successful `verify()`
yields a well-formed node. -/
theorem insertChild_verify_wf (nd2 : IndexNode) (j : Nat) (e : Entry) (nd' : IndexNode)
    (hb0 : nd2.pop0 < 2 ^ 63) (hb1 : nd2.pop1 < 2 ^ 63) (hpfx : ∀ c ∈ nd2.pfx, c < 64)
    (hents : entriesWf nd2.children = true) (hewf : entryWf e = true)
    (h : (do
        let nd3 ← childInsertAt nd2 j e
        let _ ← nd3.verifyChk
        return nd3) = .ok nd') :
    nodeWf nd' = true := by
  rcases hset : childInsertAt nd2 j e with e2 | nd3 <;>
    simp only [hset, mbindOk, mbindErr] at h
  · exact Except.noConfusion h
  · rcases hv : nd3.verifyChk with e3 | u <;>
      simp only [hv, mbindOk, mbindErr, mpure, Except.ok.injEq] at h
    · exact Except.noConfusion h
    · subst h
      obtain ⟨hj, hdef⟩ := childInsertAt_ok nd2 j e nd3 hset
      subst hdef
      have hvv := verifyChk_ok _ u hv
      simp only [IndexNode.arraySize, pop0_node, pop1_node, children_node] at hvv
      apply nodeWf_mk _ _ _ _ _ hb0 hb1 hpfx ?_ (entriesWf_insertIdx _ _ _ hents hewf)
      omega

/-- `IndexNode::insert` preserves recursive well-formedness of the walked
node (the verify() calls on the way out pin the array sizes; the
populations and paths stay bounded). -/
theorem insertGo_wf (k : Nat) : ∀ (fuel : Nat) (nd : IndexNode) (cs : List Nat)
    (nd' : IndexNode), nodeWf nd = true → (∀ c ∈ cs, c < 64) →
    insertGo k fuel nd cs = .ok nd' → nodeWf nd' = true := by
  intro fuel
  induction fuel with
  | zero =>
    intro nd cs nd' hw hcs h
    exact Except.noConfusion h
  | succ f ih =>
    intro nd cs nd' hw hcs h
    unfold insertGo at h
    by_cases hcse : cs.isEmpty = true
    · rw [if_pos hcse] at h
      exact Except.noConfusion h
    rw [if_neg hcse] at h
    rcases hdp : doPfxInsert nd cs with e | r <;>
      simp only [hdp, mbindOk, mbindErr] at h
    · exact Except.noConfusion h
    · have hw1 : nodeWf r.1 = true := doPfxInsert_wf nd cs r hw hcs hdp
      rcases hdrop : cs.drop r.2 with _ | ⟨c, rest⟩ <;> rw [hdrop] at h
      · exact Except.noConfusion h
      · have hcrest : ∀ x ∈ (c :: rest), x < 64 := by
          intro x hx
          exact hcs x (List.drop_subset _ _ (hdrop ▸ hx))
        have hc64 : c < 64 := hcrest c (List.mem_cons_self c rest)
        have hrest64 : ∀ x ∈ rest, x < 64 :=
          fun x hx => hcrest x (List.mem_cons_of_mem c hx)
        rcases hdi : doInsertToPop r.1 c with e | ri <;>
          simp only [hdi, mbindOk, mbindErr] at h
        · exact Except.noConfusion h
        · obtain ⟨hq0, hq1, hqfx, hqlen, hqents⟩ := nodeWf_dest r.1 hw1
          obtain ⟨hb0, hb1, hpfxe, hnule, hche⟩ := doInsertToPop_parts r.1 c ri hq0 hq1 hc64 hdi
          have hpfx2 : ∀ x ∈ ri.2.2.pfx, x < 64 := by rw [hpfxe]; exact hqfx
          have hents2 : entriesWf ri.2.2.children = true := by rw [hche]; exact hqents
          by_cases hde : ri.1 = true
          · simp only [hde, if_true] at h
            rcases hcg : childGet ri.2.2 (ri.2.1 - metadataSlots) with e2 | ent <;>
              simp only [hcg, mbindOk, mbindErr] at h
            · exact Except.noConfusion h
            · have hentwf : entryWf ent = true := by
                unfold childGet at hcg
                rcases hg : ri.2.2.children.get? (ri.2.1 - metadataSlots) with _ | e3 <;>
                  simp only [hg] at hcg
                · exact Except.noConfusion hcg
                · injection hcg with hx
                  subst hx
                  rw [hche] at hg
                  exact entriesWf_get _ _ _ hqents hg
              rcases ent with ek | el | sub <;> try simp only [] at h
              · split_ifs at h with h5 h6 h7
                · exact setChild_verify_wf _ _ _ _ hb0 hb1 hpfx2 hents2 (by rfl) h
                · exact setChild_verify_wf _ _ _ _ hb0 hb1 hpfx2 hents2 (by rfl) h
              · split_ifs at h with h5
                rcases hfind : listFindEq el k with _ | j2 <;> simp only [hfind] at h
                · exact setChild_verify_wf _ _ _ _ hb0 hb1 hpfx2 hents2 (by rfl) h
                · exact Except.noConfusion h
              · rcases hrec : insertGo k f sub rest with e4 | sub2 <;>
                  simp only [hrec, mbindOk, mbindErr] at h
                · exact Except.noConfusion h
                · have hsubwf : nodeWf sub2 = true :=
                    ih sub rest sub2 hentwf hrest64 hrec
                  exact setChild_verify_wf _ _ (.subnode sub2) _ hb0 hb1 hpfx2 hents2 hsubwf h
          · rw [Bool.not_eq_true] at hde
            simp only [hde, Bool.false_eq_true, if_false] at h
            split_ifs at h with h5 h6
            · exact insertChild_verify_wf _ _ _ _ hb0 hb1 hpfx2 hents2 (by rfl) h
            · exact setChild_verify_wf _ _ _ _ hb0 hb1 hpfx2 hents2 (by rfl) h
            · rcases hrec : insertGo k f emptyNode rest with e4 | sub2 <;>
                simp only [hrec, mbindOk, mbindErr] at h
              · exact Except.noConfusion h
              · have hsubwf : nodeWf sub2 = true :=
                  ih emptyNode rest sub2 emptyNode_wf hrest64 hrec
                exact insertChild_verify_wf _ _ (.subnode sub2) _ hb0 hb1 hpfx2 hents2 hsubwf h

theorem childGet_wf (nd : IndexNode) (j : Nat) (ent : Entry)
    (hw : nodeWf nd = true) (h : childGet nd j = .ok ent) : entryWf ent = true := by
  obtain ⟨h0, h1, hpfx, hlen, hents⟩ := nodeWf_dest nd hw
  unfold childGet at h
  rcases hg : nd.children.get? j with _ | e3 <;> simp only [hg] at h
  · exact Except.noConfusion h
  · injection h with hx
    subst hx
    exact entriesWf_get _ _ _ hents hg

/-- `IndexNode::erase` preserves recursive well-formedness. -/
theorem eraseGo_wf (k : Nat) : ∀ (fuel : Nat) (nd : IndexNode) (cs : List Nat)
    (nd' : IndexNode), nodeWf nd = true →
    eraseGo k fuel nd cs = .ok nd' → nodeWf nd' = true := by
  intro fuel
  induction fuel with
  | zero =>
    intro nd cs nd' hw h
    exact Except.noConfusion h
  | succ f ih =>
    intro nd cs nd' hw h
    unfold eraseGo at h
    by_cases hcond : (cs.take nd.pfx.length = nd.pfx ∧ nd.pfx.length < cs.length)
    · rw [if_pos hcond] at h
      rcases hdrop : cs.drop nd.pfx.length with _ | ⟨c, rest⟩ <;> rw [hdrop] at h
      · exact Except.noConfusion h
      · rcases hio : indexOfChunk nd c with _ | realIdx <;> simp only [hio] at h
        · exact Except.noConfusion h
        · rcases hcg : childGet nd (realIdx - metadataSlots) with e2 | ent <;>
            simp only [hcg, mbindOk, mbindErr] at h
          · exact Except.noConfusion h
          · have hentwf : entryWf ent = true := childGet_wf nd _ ent hw hcg
            rcases ent with ek | el | sub <;> try simp only [] at h
            · split_ifs at h with h5
              rcases hdr : doRemove nd realIdx with e3 | r2 <;>
                simp only [hdr, mbindOk, mbindErr, mpure, Except.ok.injEq] at h
              · exact Except.noConfusion h
              · subst h
                exact doRemove_wf nd realIdx r2 hw hdr
            · split_ifs at h with h5 h6
              rcases hfind : listFindEq el k with _ | j2 <;> simp only [hfind] at h
              · exact Except.noConfusion h
              · split_ifs at h with h7
                · rcases hdr : doRemove nd realIdx with e3 | r2 <;>
                    simp only [hdr, mbindOk, mbindErr, mpure, Except.ok.injEq] at h
                  · exact Except.noConfusion h
                  · subst h
                    exact doRemove_wf nd realIdx r2 hw hdr
                · obtain ⟨hj, hdef⟩ := childSetAt_ok _ _ _ _ h
                  subst hdef
                  obtain ⟨h0, h1, hpfx, hlen, hents⟩ := nodeWf_dest nd hw
                  apply nodeWf_mk _ _ _ _ _ h0 h1 hpfx ?_
                    (entriesWf_set _ _ _ hents (by rfl))
                  rw [List.length_set]
                  exact hlen
            · rcases hrec : eraseGo k f sub rest with e4 | sub2 <;>
                simp only [hrec, mbindOk, mbindErr] at h
              · exact Except.noConfusion h
              · have hsubwf : nodeWf sub2 = true := ih sub rest sub2 hentwf hrec
                split_ifs at h with h5
                · rcases hdr : doRemove nd realIdx with e3 | r2 <;>
                    simp only [hdr, mbindOk, mbindErr, mpure, Except.ok.injEq] at h
                  · exact Except.noConfusion h
                  · subst h
                    exact doRemove_wf nd realIdx r2 hw hdr
                · obtain ⟨hj, hdef⟩ := childSetAt_ok _ _ _ _ h
                  subst hdef
                  obtain ⟨h0, h1, hpfx, hlen, hents⟩ := nodeWf_dest nd hw
                  apply nodeWf_mk _ _ _ _ _ h0 h1 hpfx ?_
                    (entriesWf_set _ _ (.subnode sub2) hents hsubwf)
                  rw [List.length_set]
                  exact hlen
    · rw [if_neg hcond] at h
      exact Except.noConfusion h

theorem eraseKey_wf (nd : IndexNode) (k : Nat) (key : Option (List Nat))
    (nd' : IndexNode) (hw : nodeWf nd = true) (h : eraseKey nd k key = .ok nd') :
    nodeWf nd' = true := by
  rcases key with _ | cs
  · rcases nd with ⟨p0, p1, pfx, nulls, ch⟩
    obtain ⟨h0, h1, hpfx, hlen, hents⟩ := nodeWf_dest _ hw
    simp only [pop0_node, pop1_node, pfx_node, nulls_node, children_node] at h0 h1 hpfx hlen hents
    rcases nulls with _ | k0 | l <;>
      (unfold eraseKey at h
       simp only [pop0_node, pop1_node, pfx_node, nulls_node, children_node] at h)
    · exact Except.noConfusion h
    · rcases hdr : doRemove (.node p0 p1 pfx (.taggedKey k0) ch) 4 with e3 | r2 <;>
        simp only [hdr, mbindOk, mbindErr, mpure, Except.ok.injEq] at h
      · exact Except.noConfusion h
      · subst h
        exact doRemove_wf _ 4 r2 hw hdr
    · split_ifs at h with h5
      rcases hfind : listFindEq l k with _ | j2 <;> simp only [hfind] at h
      · exact Except.noConfusion h
      · split_ifs at h with h7
        · rcases hdr : doRemove (.node p0 p1 pfx (.keyList l) ch) 4 with e3 | r2 <;>
            simp only [hdr, mbindOk, mbindErr, mpure, Except.ok.injEq] at h
          · exact Except.noConfusion h
          · subst h
            exact doRemove_wf _ 4 r2 hw hdr
        · injection h with hx
          subst hx
          exact nodeWf_mk _ _ _ _ _ h0 h1 hpfx hlen hents
  · exact eraseGo_wf k cs.length nd cs nd' hw h

theorem insertKey_wf (nd : IndexNode) (k : Nat) (key : Option (List Nat))
    (nd' : IndexNode) (hw : nodeWf nd = true)
    (hcs : ∀ cs, key = some cs → ∀ c ∈ cs, c < 64)
    (h : insertKey nd k key = .ok nd') : nodeWf nd' = true := by
  rcases key with _ | cs
  · exact insertNull_wf k nd nd' hw h
  · exact insertGo_wf k cs.length nd cs nd' hw (hcs cs rfl) h

/-- C1: in a committed (recursively well-formed) index state every node is
empty exactly when its population bitmaps and nulls slot are zero, and its
array size is the five metadata slots plus the two popcounts; and this
invariant still holds after every successful insert, erase, and after
clear. -/
theorem committed_node_invariant (nd : IndexNode) (hw : nodeWf nd = true) :
    invNode nd = true
    ∧ (∀ (k : Nat) (v : Option Int) (nd2 : IndexNode),
        insertInt nd k v = .ok nd2 → nodeWf nd2 = true ∧ invNode nd2 = true)
    ∧ (∀ (k : Nat) (v : Option Int) (nd2 : IndexNode),
        eraseInt nd k v = .ok nd2 → nodeWf nd2 = true ∧ invNode nd2 = true)
    ∧ (nodeWf (clearNode nd) = true ∧ invNode (clearNode nd) = true) := by
  obtain ⟨h0, h1, hpfx, hlen, hents⟩ := nodeWf_dest nd hw
  refine ⟨invNode_of_nodeWf nd hw, ?_, ?_, ?_⟩
  · intro k v nd2 h
    have hwf : nodeWf nd2 = true := by
      refine insertKey_wf nd k (mixedChunks v) nd2 hw ?_ h
      intro cs hsome c hc
      rcases v with _ | i
      · exact Option.noConfusion hsome
      · injection hsome with hx
        subst hx
        have := intChunks_all_lt (encodeInt i)
        rw [List.all_eq_true] at this
        exact of_decide_eq_true (this c hc)
    exact ⟨hwf, invNode_of_nodeWf _ hwf⟩
  · intro k v nd2 h
    have hwf : nodeWf nd2 = true := eraseKey_wf nd k (mixedChunks v) nd2 hw h
    exact ⟨hwf, invNode_of_nodeWf _ hwf⟩
  · have hcw : nodeWf (clearNode nd) = true := by
      unfold clearNode
      exact nodeWf_mk _ _ _ _ _ (by norm_num) (by norm_num) hpfx (by rfl) rfl
    exact ⟨hcw, invNode_of_nodeWf _ hcw⟩

theorem committed_node_invariant_witness :
    invNode emptyNode = true ∧ nodeWf s1A1 = true ∧ invNode s1A1 = true := by
  obtain ⟨h1, h2, -, -⟩ := committed_node_invariant emptyNode (by rfl)
  obtain ⟨h3, h4⟩ := h2 0 (some 0) s1A1 (by rfl)
  exact ⟨h1, h3, h4⟩

/-! ## Clean-insert round trip (C2) -/

theorem sharedLen_full (ex : List Nat) : ∀ (cs : List Nat),
    sharedLen ex cs = ex.length → cs.take ex.length = ex := by
  induction ex with
  | nil =>
    intro cs h
    rfl
  | cons e ex ih =>
    intro cs h
    rcases cs with _ | ⟨c, cs2⟩
    · simp [sharedLen] at h
    · rcases cs2 with _ | ⟨c2, cs3⟩
      · simp [sharedLen] at h
      · simp only [sharedLen] at h
        split_ifs at h with hce
        · subst hce
          have hlen : sharedLen ex (c2 :: cs3) = ex.length := by
            simp only [List.length_cons] at h
            omega
          have h1 := ih (c2 :: cs3) hlen
          simp only [List.length_cons, List.take_succ_cons, h1]
        · simp only [List.length_cons] at h
          omega

theorem cleanGo_ne_empty (k fuel : Nat) (nd : IndexNode) (cs : List Nat)
    (h : cleanGo k fuel nd cs = true) : nd.isEmptyPop = false := by
  rcases fuel with _ | f
  · exact absurd h (by simp [cleanGo])
  · unfold cleanGo at h
    rw [Bool.and_eq_true, Bool.and_eq_true] at h
    rw [← Bool.not_eq_true']
    exact h.1.1

theorem get?_insertIdx_self (ch : List Entry) :
    ∀ (j : Nat) (e : Entry), j ≤ ch.length → (ch.insertIdx j e).get? j = some e := by
  induction ch with
  | nil =>
    intro j e hj
    simp only [List.length_nil] at hj
    have hj0 : j = 0 := by omega
    subst hj0
    rfl
  | cons x xs ih =>
    intro j e hj
    rcases j with _ | j
    · rfl
    · rw [List.insertIdx_succ_cons]
      exact ih j e (by simpa using hj)

theorem eraseIdx_insertIdx_self (ch : List Entry) :
    ∀ (j : Nat) (e : Entry), (ch.insertIdx j e).eraseIdx j = ch := by
  induction ch with
  | nil =>
    intro j e
    rcases j with _ | j <;> rfl
  | cons x xs ih =>
    intro j e
    rcases j with _ | j
    · rfl
    · rw [List.insertIdx_succ_cons]
      show x :: (xs.insertIdx j e).eraseIdx j = x :: xs
      rw [ih j e]

theorem get?_set_self (ch : List Entry) :
    ∀ (j : Nat) (e : Entry), j < ch.length → (ch.set j e).get? j = some e := by
  induction ch with
  | nil =>
    intro j e hj
    simp at hj
  | cons x xs ih =>
    intro j e hj
    rcases j with _ | j
    · rfl
    · exact ih j e (by simpa using hj)

theorem set_set_self (ch : List Entry) :
    ∀ (j : Nat) (a b : Entry), (ch.set j a).set j b = ch.set j b := by
  induction ch with
  | nil =>
    intro j a b
    rfl
  | cons x xs ih =>
    intro j a b
    rcases j with _ | j
    · rfl
    · show x :: (xs.set j a).set j b = x :: xs.set j b
      rw [ih]

theorem set_get?_self (ch : List Entry) :
    ∀ (j : Nat) (e : Entry), ch.get? j = some e → ch.set j e = ch := by
  induction ch with
  | nil =>
    intro j e hg
    exact Option.noConfusion hg
  | cons x xs ih =>
    intro j e hg
    rcases j with _ | j
    · injection hg with hx
      rw [List.set]
      rw [hx]
    · show x :: xs.set j e = x :: xs
      rw [ih j e hg]

theorem listInsertSorted_ne_nil (l : List Nat) (k : Nat) :
    (listInsertSorted l k).isEmpty = false := by
  rcases l with _ | ⟨x, xs⟩
  · rfl
  · unfold listInsertSorted
    split_ifs <;> rfl

/-- Inserting a fresh ObjKey into a sorted list and erasing it again
restores the list exactly. -/
theorem listInsertSorted_roundtrip (l : List Nat) (k : Nat)
    (h : listFindEq l k = none) :
    ∃ i, listFindEq (listInsertSorted l k) k = some i
      ∧ (listInsertSorted l k).eraseIdx i = l := by
  induction l with
  | nil =>
    exact ⟨0, by simp [listInsertSorted, listFindEq], rfl⟩
  | cons x xs ih =>
    unfold listFindEq at h
    split_ifs at h with hxk
    have hxs : listFindEq xs k = none := by
      rcases hq : listFindEq xs k with _ | i
      · rfl
      · rw [hq] at h
        exact Option.noConfusion h
    unfold listInsertSorted
    split_ifs with hkx
    · refine ⟨0, ?_, rfl⟩
      unfold listFindEq
      rw [if_pos rfl]
    · obtain ⟨i, hfind, herase⟩ := ih hxs
      refine ⟨i + 1, ?_, ?_⟩
      · unfold listFindEq
        rw [if_neg hxk, hfind]
        rfl
      · show x :: (listInsertSorted xs k).eraseIdx i = x :: xs
        rw [herase]

theorem indexOfChunk_congr (nd nd2 : IndexNode) (c : Nat)
    (h0 : nd2.pop0 = nd.pop0) (h1 : nd2.pop1 = nd.pop1) :
    indexOfChunk nd2 c = indexOfChunk nd c := by
  unfold indexOfChunk
  rw [h0, h1]

/-- `do_insert_to_population` at a clear population bit: the bit is set and
the returned physical index is the popcount-prefix position, stated through
`countBelow`. -/
theorem doInsertToPop_fresh (nd : IndexNode) (c : Nat) (hc : c < 64)
    (hio : indexOfChunk nd c = none) :
    (c < 63 ∧ nd.pop0.testBit c = false ∧
      doInsertToPop nd c = .ok (false,
        metadataSlots + countBelow (nd.pop0 ||| 1 <<< c) (c + 1) - 1,
        .node (nd.pop0 ||| 1 <<< c) nd.pop1 nd.pfx nd.nulls nd.children))
    ∨ (c = 63 ∧ nd.pop1.testBit 0 = false ∧
      doInsertToPop nd c = .ok (false,
        metadataSlots + countBelow (nd.pop1 ||| 1 <<< 0) 1 + popcount nd.pop0 - 1,
        .node nd.pop0 (nd.pop1 ||| 1 <<< 0) nd.pfx nd.nulls nd.children)) := by
  unfold indexOfChunk at hio
  unfold doInsertToPop
  rw [if_pos (by omega : c ≤ 63 + 63)]
  simp only [] at hio ⊢
  by_cases h63 : c < 63
  · left
    rw [if_pos h63] at hio
    split_ifs at hio with htb
    · refine ⟨h63, htb, ?_⟩
      rw [if_pos h63, if_pos htb]
      rw [popcount_shift_trunc _ (63 - c) (by omega),
        show 64 - (63 - c) = c + 1 from by omega]
  · right
    have hc63 : c = 63 := by omega
    subst hc63
    rw [if_neg h63] at hio
    split_ifs at hio with htb
    · refine ⟨rfl, htb, ?_⟩
      rw [if_neg h63, if_pos htb]
      rw [popcount_shift_trunc _ (63 - (63 - 63)) (by omega),
        show 64 - (63 - (63 - 63)) = 1 from by omega]

/-- Erasing a tagged ObjKey right after a fresh-bit insert in population 0
restores the node bit-for-bit: the population bit is cleared back and the
inserted child slot removed. -/
theorem erase_fresh_pop0 (k c fuel : Nat) (p0 p1 : Nat) (pfx : List Nat)
    (nulls : NullSlot) (ch : List Entry) (cs : List Nat)
    (hc63 : c < 63) (h0 : p0 < 2 ^ 63)
    (hlen : ch.length = popcount p0 + popcount p1)
    (htb : p0.testBit c = false)
    (htake : cs.take pfx.length = pfx) (hlarge : pfx.length < cs.length)
    (hdrop : cs.drop pfx.length = [c]) :
    eraseGo k (fuel + 1)
      (.node (p0 ||| 1 <<< c) p1 pfx nulls
        (ch.insertIdx (metadataSlots + countBelow (p0 ||| 1 <<< c) (c + 1) - 1 - metadataSlots)
          (.taggedKey k))) cs
      = .ok (.node p0 p1 pfx nulls ch) := by
  have htbE : (p0 ||| 1 <<< c).testBit c = true := by
    rw [testBit_set_bit, htb]
    simp
  have hplt : p0 ||| 1 <<< c < 2 ^ 63 := lor_two_pow_lt p0 c 63 h0 hc63
  have hplt64 : p0 ||| 1 <<< c < 2 ^ 64 := lt_of_lt_of_le hplt (by norm_num)
  have hcb1 : 1 ≤ countBelow (p0 ||| 1 <<< c) (c + 1) :=
    countBelow_pos_of_testBit _ c (c + 1) htbE (by omega) (by omega)
  have hcble : countBelow (p0 ||| 1 <<< c) (c + 1) ≤ popcount (p0 ||| 1 <<< c) :=
    countBelow_le_popcount _ (c + 1) 64 hplt64 (by omega) (le_refl 64)
  have hpc : popcount (p0 ||| 1 <<< c) = popcount p0 + 1 :=
    popcount_set_bit p0 c 64 (lt_of_lt_of_le h0 (by norm_num)) (by omega) (le_refl 64) htb
  have hjeq : metadataSlots + countBelow (p0 ||| 1 <<< c) (c + 1) - 1 - metadataSlots
      = countBelow (p0 ||| 1 <<< c) (c + 1) - 1 := by
    simp only [metadataSlots]
    omega
  have hjle : countBelow (p0 ||| 1 <<< c) (c + 1) - 1 ≤ ch.length := by
    rw [hlen]
    omega
  have hnth : nthSetBit (p0 ||| 1 <<< c) (countBelow (p0 ||| 1 <<< c) (c + 1) - 1) = c :=
    nthSetBit_countBelow c _ hc63 hplt htbE
  unfold eraseGo
  simp only [pfx_node, pop0_node, pop1_node, nulls_node, children_node]
  rw [if_pos ⟨htake, hlarge⟩, hdrop]
  have hioE : indexOfChunk (.node (p0 ||| 1 <<< c) p1 pfx nulls
      (ch.insertIdx (metadataSlots + countBelow (p0 ||| 1 <<< c) (c + 1) - 1 - metadataSlots)
        (.taggedKey k))) c
      = some (metadataSlots + countBelow (p0 ||| 1 <<< c) (c + 1) - 1) := by
    unfold indexOfChunk
    simp only [pop0_node]
    rw [if_pos hc63, if_neg (by simp [htbE])]
    rw [popcount_shift_trunc _ (63 - c) (by omega),
      show 64 - (63 - c) = c + 1 from by omega]
  simp only [hioE]
  have hcgE : childGet (.node (p0 ||| 1 <<< c) p1 pfx nulls
      (ch.insertIdx (metadataSlots + countBelow (p0 ||| 1 <<< c) (c + 1) - 1 - metadataSlots)
        (.taggedKey k)))
      (metadataSlots + countBelow (p0 ||| 1 <<< c) (c + 1) - 1 - metadataSlots)
      = .ok (.taggedKey k) := by
    unfold childGet
    simp only [children_node]
    rw [get?_insertIdx_self ch _ _ (by rw [hjeq]; exact hjle)]
  simp only [hcgE, mbindOk]
  rw [if_neg (by simp)]
  have hdrE : ∃ b, doRemove (.node (p0 ||| 1 <<< c) p1 pfx nulls
      (ch.insertIdx (metadataSlots + countBelow (p0 ||| 1 <<< c) (c + 1) - 1 - metadataSlots)
        (.taggedKey k)))
      (metadataSlots + countBelow (p0 ||| 1 <<< c) (c + 1) - 1)
      = .ok (.node p0 p1 pfx nulls ch, b) := by
    refine ⟨(p0 == 0 && p1 == 0 && nulls == NullSlot.vacant), ?_⟩
    unfold doRemove
    simp only [pop0_node, pop1_node, pfx_node, nulls_node, children_node]
    rw [hjeq]
    rw [if_neg (show ¬(metadataSlots + countBelow (p0 ||| 1 <<< c) (c + 1) - 1 = 4) from by
      simp only [metadataSlots]; omega)]
    rw [if_neg (show ¬(metadataSlots + countBelow (p0 ||| 1 <<< c) (c + 1) - 1 < metadataSlots)
      from by simp only [metadataSlots]; omega)]
    rw [if_pos (show countBelow (p0 ||| 1 <<< c) (c + 1) - 1
        < (ch.insertIdx (countBelow (p0 ||| 1 <<< c) (c + 1) - 1) (Entry.taggedKey k)).length
      from by rw [List.length_insertIdx _ _ hjle]; omega)]
    rw [if_neg (show ¬((p0 ||| 1 <<< c) = 0 ∧ p1 = 0) from by
      rintro ⟨hz, -⟩
      rw [hz, Nat.zero_testBit] at htbE
      exact Bool.noConfusion htbE)]
    try simp only []
    rw [if_pos (show popcount (p0 ||| 1 <<< c)
        > countBelow (p0 ||| 1 <<< c) (c + 1) - 1 from by omega)]
    rw [hnth]
    rw [if_neg (by simp [htbE])]
    rw [clear_set_bit p0 c (lt_of_lt_of_le h0 (by norm_num)) (by omega) htb]
    rw [eraseIdx_insertIdx_self]
  obtain ⟨b, hdrE⟩ := hdrE
  simp only [hdrE, mbindOk, mpure]

/-- Erasing a tagged ObjKey right after a fresh-bit insert in population 1
(terminal chunk 63) restores the node bit-for-bit. -/
theorem erase_fresh_pop1 (k fuel : Nat) (p0 p1 : Nat) (pfx : List Nat)
    (nulls : NullSlot) (ch : List Entry) (cs : List Nat)
    (h1 : p1 < 2 ^ 63)
    (hlen : ch.length = popcount p0 + popcount p1)
    (htb : p1.testBit 0 = false)
    (htake : cs.take pfx.length = pfx) (hlarge : pfx.length < cs.length)
    (hdrop : cs.drop pfx.length = [63]) :
    eraseGo k (fuel + 1)
      (.node p0 (p1 ||| 1 <<< 0) pfx nulls
        (ch.insertIdx (metadataSlots + countBelow (p1 ||| 1 <<< 0) 1 + popcount p0 - 1
          - metadataSlots) (.taggedKey k))) cs
      = .ok (.node p0 p1 pfx nulls ch) := by
  have htbE : (p1 ||| 1 <<< 0).testBit 0 = true := by
    rw [testBit_set_bit, htb]
    simp
  have hplt : p1 ||| 1 <<< 0 < 2 ^ 63 := lor_two_pow_lt p1 0 63 h1 (by omega)
  have hplt64 : p1 ||| 1 <<< 0 < 2 ^ 64 := lt_of_lt_of_le hplt (by norm_num)
  have hcb1 : 1 ≤ countBelow (p1 ||| 1 <<< 0) 1 :=
    countBelow_pos_of_testBit _ 0 1 htbE (by omega) (by omega)
  have hcble : countBelow (p1 ||| 1 <<< 0) 1 ≤ popcount (p1 ||| 1 <<< 0) :=
    countBelow_le_popcount _ 1 64 hplt64 (by omega) (le_refl 64)
  have hpc : popcount (p1 ||| 1 <<< 0) = popcount p1 + 1 :=
    popcount_set_bit p1 0 64 (lt_of_lt_of_le h1 (by norm_num)) (by omega) (le_refl 64) htb
  have hjeq : metadataSlots + countBelow (p1 ||| 1 <<< 0) 1 + popcount p0 - 1 - metadataSlots
      = countBelow (p1 ||| 1 <<< 0) 1 + popcount p0 - 1 := by
    simp only [metadataSlots]
    omega
  have hjle : countBelow (p1 ||| 1 <<< 0) 1 + popcount p0 - 1 ≤ ch.length := by
    rw [hlen]
    omega
  have hnth : nthSetBit (p1 ||| 1 <<< 0) (countBelow (p1 ||| 1 <<< 0) (0 + 1) - 1) = 0 :=
    nthSetBit_countBelow 0 _ (by omega) hplt htbE
  rw [show (0 : Nat) + 1 = 1 from rfl] at hnth
  unfold eraseGo
  simp only [pfx_node, pop0_node, pop1_node, nulls_node, children_node]
  rw [if_pos ⟨htake, hlarge⟩, hdrop]
  have hioE : indexOfChunk (.node p0 (p1 ||| 1 <<< 0) pfx nulls
      (ch.insertIdx (metadataSlots + countBelow (p1 ||| 1 <<< 0) 1 + popcount p0 - 1
        - metadataSlots) (.taggedKey k))) 63
      = some (metadataSlots + countBelow (p1 ||| 1 <<< 0) 1 + popcount p0 - 1) := by
    unfold indexOfChunk
    simp only [pop0_node, pop1_node]
    rw [if_neg (by omega)]
    try simp only []
    rw [if_neg (by simp [htbE])]
    rw [popcount_shift_trunc _ (63 - (63 - 63)) (by omega),
      show 64 - (63 - (63 - 63)) = 1 from by omega]
  simp only [hioE]
  have hcgE : childGet (.node p0 (p1 ||| 1 <<< 0) pfx nulls
      (ch.insertIdx (metadataSlots + countBelow (p1 ||| 1 <<< 0) 1 + popcount p0 - 1
        - metadataSlots) (.taggedKey k)))
      (metadataSlots + countBelow (p1 ||| 1 <<< 0) 1 + popcount p0 - 1 - metadataSlots)
      = .ok (.taggedKey k) := by
    unfold childGet
    simp only [children_node]
    rw [get?_insertIdx_self ch _ _ (by rw [hjeq]; exact hjle)]
  simp only [hcgE, mbindOk]
  rw [if_neg (by simp)]
  have hdrE : ∃ b, doRemove (.node p0 (p1 ||| 1 <<< 0) pfx nulls
      (ch.insertIdx (metadataSlots + countBelow (p1 ||| 1 <<< 0) 1 + popcount p0 - 1
        - metadataSlots) (.taggedKey k)))
      (metadataSlots + countBelow (p1 ||| 1 <<< 0) 1 + popcount p0 - 1)
      = .ok (.node p0 p1 pfx nulls ch, b) := by
    refine ⟨(p0 == 0 && p1 == 0 && nulls == NullSlot.vacant), ?_⟩
    unfold doRemove
    simp only [pop0_node, pop1_node, pfx_node, nulls_node, children_node]
    rw [hjeq]
    rw [if_neg (show ¬(metadataSlots + countBelow (p1 ||| 1 <<< 0) 1 + popcount p0 - 1 = 4)
      from by simp only [metadataSlots]; omega)]
    rw [if_neg (show ¬(metadataSlots + countBelow (p1 ||| 1 <<< 0) 1 + popcount p0 - 1
        < metadataSlots) from by simp only [metadataSlots]; omega)]
    rw [if_pos (show countBelow (p1 ||| 1 <<< 0) 1 + popcount p0 - 1
        < (ch.insertIdx (countBelow (p1 ||| 1 <<< 0) 1 + popcount p0 - 1)
            (Entry.taggedKey k)).length
      from by rw [List.length_insertIdx _ _ hjle]; omega)]
    rw [if_neg (show ¬(p0 = 0 ∧ (p1 ||| 1 <<< 0) = 0) from by
      rintro ⟨-, hz⟩
      rw [hz, Nat.zero_testBit] at htbE
      exact Bool.noConfusion htbE)]
    try simp only []
    rw [if_neg (show ¬(popcount p0
        > countBelow (p1 ||| 1 <<< 0) 1 + popcount p0 - 1) from by omega)]
    rw [show countBelow (p1 ||| 1 <<< 0) 1 + popcount p0 - 1 - popcount p0
        = countBelow (p1 ||| 1 <<< 0) 1 - 1 from by omega]
    rw [hnth]
    rw [if_neg (by simp [htbE])]
    rw [clear_set_bit p1 0 (lt_of_lt_of_le h1 (by norm_num)) (by omega) htb]
    rw [eraseIdx_insertIdx_self]
  obtain ⟨b, hdrE⟩ := hdrE
  simp only [hdrE, mbindOk, mpure]

/-- The fuel-indexed round trip: a clean insert followed by an erase of the
same `(ObjKey, key)` pair restores the walked node bit-for-bit. -/
theorem insert_erase_roundtrip_go (k : Nat) : ∀ (fuel : Nat) (nd : IndexNode)
    (cs : List Nat) (nd' : IndexNode), nodeWf nd = true →
    cleanGo k fuel nd cs = true → insertGo k fuel nd cs = .ok nd' →
    eraseGo k fuel nd' cs = .ok nd := by
  intro fuel
  induction fuel with
  | zero =>
    intro nd cs nd' hw hcl h
    exact absurd hcl (by simp [cleanGo])
  | succ f ih =>
    intro nd cs nd' hw hcl h
    rcases nd with ⟨p0, p1, pfx, nulls, ch⟩
    obtain ⟨h0, h1, hpfx, hlen, hents⟩ := nodeWf_dest _ hw
    simp only [pop0_node, pop1_node, pfx_node, nulls_node, children_node]
      at h0 h1 hpfx hlen hents
    unfold cleanGo at hcl
    rw [Bool.and_eq_true, Bool.and_eq_true] at hcl
    obtain ⟨⟨hne, hsh⟩, h3⟩ := hcl
    rw [Bool.not_eq_true'] at hne
    rw [beq_iff_eq] at hsh
    simp only [pfx_node] at hsh h3
    rcases hdrop : cs.drop pfx.length with _ | ⟨c, rest⟩ <;> simp only [hdrop] at h3
    · exact absurd h3 (by simp)
    · rw [Bool.and_eq_true, decide_eq_true_eq] at h3
      obtain ⟨hc64, h4⟩ := h3
      have htake : cs.take pfx.length = pfx := sharedLen_full pfx cs hsh
      have hlarge : pfx.length < cs.length := by
        have hl := congrArg List.length hdrop
        rw [List.length_drop] at hl
        simp only [List.length_cons] at hl
        omega
      have hcs : cs.isEmpty = false := isEmpty_false_of_drop_cons cs _ c rest hdrop
      unfold insertGo at h
      rw [hcs] at h
      simp only [Bool.false_eq_true, if_false,
        doPfxInsert_shared _ cs hne hsh, mbindOk, pfx_node] at h
      rw [hdrop] at h
      rcases hio : indexOfChunk (.node p0 p1 pfx nulls ch) c with _ | realIdx <;>
        simp only [hio] at h4
      · -- A: fresh population bit, terminal tagged insert
        rw [Bool.and_eq_true, decide_eq_true_eq] at h4
        obtain ⟨hk63, hre⟩ := h4
        have hrnil : rest = [] := by
          rcases rest with _ | ⟨r0, rs⟩
          · rfl
          · exact Bool.noConfusion hre
        subst hrnil
        rcases doInsertToPop_fresh (.node p0 p1 pfx nulls ch) c hc64 hio with
          ⟨hc63, htb, hdi⟩ | ⟨hc63, htb, hdi⟩
        · simp only [pop0_node, pop1_node, pfx_node, nulls_node, children_node] at hdi htb
          simp only [hdi, mbindOk, Bool.false_eq_true, if_false, List.isEmpty_nil,
            if_true] at h
          rw [if_pos hk63] at h
          rcases hcia : childInsertAt (.node (p0 ||| 1 <<< c) p1 pfx nulls ch)
              (metadataSlots + countBelow (p0 ||| 1 <<< c) (c + 1) - 1 - metadataSlots)
              (.taggedKey k) with e2 | nd3 <;> simp only [hcia, mbindOk, mbindErr] at h
          · exact Except.noConfusion h
          · obtain ⟨hj, hdef⟩ := childInsertAt_ok _ _ _ _ hcia
            rcases hv : nd3.verifyChk with e3 | u <;>
              simp only [hv, mbindOk, mbindErr, mpure, Except.ok.injEq] at h
            · exact Except.noConfusion h
            · subst h
              subst hdef
              simp only [pop0_node, pop1_node, pfx_node, nulls_node, children_node]
              exact erase_fresh_pop0 k c f p0 p1 pfx nulls ch cs hc63 h0 hlen htb
                htake hlarge hdrop
        · subst hc63
          simp only [pop0_node, pop1_node, pfx_node, nulls_node, children_node] at hdi htb
          simp only [hdi, mbindOk, Bool.false_eq_true, if_false, List.isEmpty_nil,
            if_true] at h
          rw [if_pos hk63] at h
          rcases hcia : childInsertAt (.node p0 (p1 ||| 1 <<< 0) pfx nulls ch)
              (metadataSlots + countBelow (p1 ||| 1 <<< 0) 1 + popcount p0 - 1
                - metadataSlots)
              (.taggedKey k) with e2 | nd3 <;> simp only [hcia, mbindOk, mbindErr] at h
          · exact Except.noConfusion h
          · obtain ⟨hj, hdef⟩ := childInsertAt_ok _ _ _ _ hcia
            rcases hv : nd3.verifyChk with e3 | u <;>
              simp only [hv, mbindOk, mbindErr, mpure, Except.ok.injEq] at h
            · exact Except.noConfusion h
            · subst h
              subst hdef
              simp only [pop0_node, pop1_node, pfx_node, nulls_node, children_node]
              exact erase_fresh_pop1 k f p0 p1 pfx nulls ch cs h1 hlen htb
                htake hlarge hdrop
      · -- B/C: the population bit exists
        simp only [children_node] at h4
        rcases hget : ch.get? (realIdx - metadataSlots) with _ | ent <;>
          simp only [hget] at h4
        · exact absurd h4 (by simp)
        · simp only [doInsertToPop_existing _ c realIdx hio hc64, mbindOk, if_true] at h
          simp only [childGet, children_node, hget, mbindOk] at h
          rcases ent with ek | el | sub <;> try simp only [] at h
          · exact absurd h4 (by simp)
          · -- B: existing ObjKey list
            rw [Bool.and_eq_true, Bool.and_eq_true] at h4
            obtain ⟨⟨hre, hnel⟩, hfnone⟩ := h4
            have hrnil : rest = [] := by
              rcases rest with _ | ⟨r0, rs⟩
              · rfl
              · exact Bool.noConfusion hre
            subst hrnil
            rw [Bool.not_eq_true'] at hnel
            rw [Option.isNone_iff_eq_none] at hfnone
            rw [if_neg (by simp)] at h
            simp only [hfnone] at h
            rcases hcsa : childSetAt (.node p0 p1 pfx nulls ch) (realIdx - metadataSlots)
                (.keyList (listInsertSorted el k)) with e2 | nd3 <;>
              simp only [hcsa, mbindOk, mbindErr] at h
            · exact Except.noConfusion h
            · obtain ⟨hj, hdef⟩ := childSetAt_ok _ _ _ _ hcsa
              simp only [children_node] at hj
              rcases hv : nd3.verifyChk with e3 | u <;>
                simp only [hv, mbindOk, mbindErr, mpure, Except.ok.injEq] at h
              · exact Except.noConfusion h
              · subst h
                subst hdef
                simp only [pop0_node, pop1_node, pfx_node, nulls_node, children_node]
                obtain ⟨i2, hfind2, herase2⟩ := listInsertSorted_roundtrip el k hfnone
                unfold eraseGo
                simp only [pfx_node, pop0_node, pop1_node, nulls_node, children_node]
                rw [if_pos ⟨htake, hlarge⟩, hdrop]
                have hioE : indexOfChunk (.node p0 p1 pfx nulls
                    (ch.set (realIdx - metadataSlots) (.keyList (listInsertSorted el k)))) c
                    = some realIdx := by
                  rw [indexOfChunk_congr (.node p0 p1 pfx nulls ch)
                    (.node p0 p1 pfx nulls
                      (ch.set (realIdx - metadataSlots) (.keyList (listInsertSorted el k))))
                    c rfl rfl]
                  exact hio
                simp only [hioE]
                have hcgE : childGet (.node p0 p1 pfx nulls
                    (ch.set (realIdx - metadataSlots) (.keyList (listInsertSorted el k))))
                    (realIdx - metadataSlots) = .ok (.keyList (listInsertSorted el k)) := by
                  unfold childGet
                  simp only [children_node]
                  rw [get?_set_self ch _ _ hj]
                simp only [hcgE, mbindOk]
                rw [if_neg (by simp)]
                rw [if_neg (by simp [listInsertSorted_ne_nil])]
                simp only [hfind2]
                rw [herase2]
                rw [if_neg (by simp [hnel])]
                unfold childSetAt
                simp only [children_node, pop0_node, pop1_node, pfx_node, nulls_node]
                rw [if_pos (show realIdx - metadataSlots
                    < (ch.set (realIdx - metadataSlots)
                        (Entry.keyList (listInsertSorted el k))).length from by
                  rw [List.length_set]; exact hj)]
                rw [set_set_self, set_get?_self ch _ _ hget]
          · -- C: descend into the subnode
            rw [Bool.and_eq_true, Bool.not_eq_true'] at h4
            obtain ⟨hrne, hclsub⟩ := h4
            have hsubwf : nodeWf sub = true := entriesWf_get ch _ _ hents hget
            rcases hrec : insertGo k f sub rest with e4 | sub2 <;>
              simp only [hrec, mbindOk, mbindErr] at h
            · exact Except.noConfusion h
            · have hih := ih sub rest sub2 hsubwf hclsub hrec
              have hsne : sub.isEmptyPop = false := cleanGo_ne_empty k f sub rest hclsub
              rcases hcsa : childSetAt (.node p0 p1 pfx nulls ch) (realIdx - metadataSlots)
                  (.subnode sub2) with e2 | nd3 <;> simp only [hcsa, mbindOk, mbindErr] at h
              · exact Except.noConfusion h
              · obtain ⟨hj, hdef⟩ := childSetAt_ok _ _ _ _ hcsa
                simp only [children_node] at hj
                rcases hv : nd3.verifyChk with e3 | u <;>
                  simp only [hv, mbindOk, mbindErr, mpure, Except.ok.injEq] at h
                · exact Except.noConfusion h
                · subst h
                  subst hdef
                  simp only [pop0_node, pop1_node, pfx_node, nulls_node, children_node]
                  unfold eraseGo
                  simp only [pfx_node, pop0_node, pop1_node, nulls_node, children_node]
                  rw [if_pos ⟨htake, hlarge⟩, hdrop]
                  have hioE : indexOfChunk (.node p0 p1 pfx nulls
                      (ch.set (realIdx - metadataSlots) (.subnode sub2))) c
                      = some realIdx := by
                    rw [indexOfChunk_congr (.node p0 p1 pfx nulls ch)
                      (.node p0 p1 pfx nulls
                        (ch.set (realIdx - metadataSlots) (.subnode sub2))) c rfl rfl]
                    exact hio
                  simp only [hioE]
                  have hcgE : childGet (.node p0 p1 pfx nulls
                      (ch.set (realIdx - metadataSlots) (.subnode sub2)))
                      (realIdx - metadataSlots) = .ok (.subnode sub2) := by
                    unfold childGet
                    simp only [children_node]
                    rw [get?_set_self ch _ _ hj]
                  simp only [hcgE, mbindOk]
                  simp only [hih, mbindOk, hsne, Bool.false_eq_true, if_false]
                  unfold childSetAt
                  simp only [children_node, pop0_node, pop1_node, pfx_node, nulls_node]
                  rw [if_pos (show realIdx - metadataSlots
                      < (ch.set (realIdx - metadataSlots) (Entry.subnode sub2)).length
                    from by rw [List.length_set]; exact hj)]
                  rw [set_set_self, set_get?_self ch _ _ hget]

/-- C2 (amended): a clean insert — every walked node nonempty and sharing
its whole stored path with the key, terminal position a clear population
bit with no remaining chunks and `k < 2^63`, or an existing ObjKey list not
yet holding `k` — followed by erasing the same `(ObjKey, value)` pair
restores the well-formed index state bit-for-bit. -/
theorem insert_erase_roundtrip_clean (nd : IndexNode) (k : Nat) (cs : List Nat)
    (nd' : IndexNode) (hw : nodeWf nd = true) (hclean : cleanInsert k nd cs = true)
    (h : insertAux k nd cs = .ok nd') :
    eraseAux k nd' cs = .ok nd :=
  insert_erase_roundtrip_go k cs.length nd cs nd' hw hclean h

theorem insert_erase_roundtrip_clean_witness :
    nodeWf s1A1 = true
    ∧ cleanInsert 7 s1A1 (intChunks (encodeInt 1)) = true
    ∧ eraseAux 7 (IndexNode.node 3 0 [0, 0, 0, 0, 0, 0, 0, 0, 0, 0] NullSlot.vacant
        [(Entry.taggedKey 0), (Entry.taggedKey 7)]) (intChunks (encodeInt 1))
      = .ok s1A1 := by
  refine ⟨by rfl, by rfl, ?_⟩
  exact insert_erase_roundtrip_clean s1A1 7 (intChunks (encodeInt 1))
    (IndexNode.node 3 0 [0, 0, 0, 0, 0, 0, 0, 0, 0, 0] NullSlot.vacant
      [(Entry.taggedKey 0), (Entry.taggedKey 7)]) (by rfl) (by rfl) (by rfl)

end RealmSpec
